import Mathlib

/-!
Verification of the `FileTreeStore` module (src/unnamed/part_000) of the
nuclide file-tree package.

The store is embedded shallowly:

* JS plain objects used as string-keyed maps (`childKeyMap`, `subscriptionMap`,
  `isLoadingMap`, ...) become association lists `List (Key × α)` with the
  `setProperty` / `deleteProperty` copy-on-write helpers of the source
  transcribed as `aSet` / `aDel`.  JS reference equality (`===`) on the
  immutable values is modelled conservatively as structural equality.
* `Immutable.Set` / `Immutable.OrderedSet` become duplicate-free `List Key`
  in insertion order, with `sAdd` / `sDel` mirroring `add` / `delete`
  (returning the unchanged list when nothing changes, as Immutable returns
  the same reference).
* External effects (the listing collaborator, watch handles, the logger, the
  change emitter) are recorded as events in a trace; watch handles and
  pending fetch promises are numbered.
* `setImmediate` / `clearImmediate` debouncing is modelled by a list of live
  scheduled timers plus the `_timer` field holding the most recently armed
  handle; `endTick` fires every timer still live at the end of the tick.
* The recursive methods (`_purgeDirectory`, `_collapseNode`, `_expandNode`,
  the `getVisibleNodes` work-list loop) take a fuel argument and return
  `none` when the fuel runs out, so "the call completes" is `= some _`.
* `FileTreeHelpers` is not part of the sources.  Modelled from the spec:
  node keys are opaque path-like strings, keys ending in the container
  suffix "/" are directory keys (`isDirKey`), and `getDirectoryByKey`
  produces a watchable directory exactly for directory keys.
-/

namespace FileTree

abbrev Key := String

/-- Modelled from the spec: `FileTreeHelpers.isDirKey` is missing from the
sources; per spec §3 a key is a container (directory) key iff it ends in the
distinguished suffix, which is the path separator (checked on the character
list so that it computes inside the kernel). -/
def isDirKey (k : Key) : Bool := k.data.getLast? = some '/'

/-- Lookup in a JS-object-as-map (first matching property). -/
def aGet {α : Type} (m : List (Key × α)) (k : Key) : Option α :=
  match m with
  | [] => none
  | (k', v) :: t => if k' = k then some v else aGet t k

/-- `setProperty` of the source: shallow copy with one property set; returns
the unchanged object when the old value equals the new one. -/
def aSet {α : Type} [DecidableEq α] (m : List (Key × α)) (k : Key) (v : α) :
    List (Key × α) :=
  match aGet m k with
  | some v' => if v' = v then m else m.map (fun e => if e.1 = k then (k, v) else e)
  | none => m ++ [(k, v)]

/-- Removal of a property from an object: keeps every entry with a
different key. -/
def entriesRemove {α : Type} (m : List (Key × α)) (k : Key) : List (Key × α) :=
  match m with
  | [] => []
  | e :: t => if e.1 = k then entriesRemove t k else e :: entriesRemove t k

/-- `deleteProperty` of the source: shallow copy with one property removed;
returns the unchanged object when the property is absent. -/
def aDel {α : Type} (m : List (Key × α)) (k : Key) : List (Key × α) :=
  if (aGet m k).isSome then entriesRemove m k else m

/-- `Immutable.Set.add` / `OrderedSet.add`: insertion order, no duplicates,
unchanged when the element is already present. -/
def sAdd (s : List Key) (k : Key) : List Key :=
  if k ∈ s then s else s ++ [k]

/-- Removal of an element from a set's backing list. -/
def listRemove (s : List Key) (k : Key) : List Key :=
  match s with
  | [] => []
  | x :: t => if x = k then listRemove t k else x :: listRemove t k

/-- `Immutable.Set.delete`: unchanged when the element is absent. -/
def sDel (s : List Key) (k : Key) : List Key :=
  if k ∈ s then listRemove s k else s

/-- The serialization schema version (`VERSION` in the source). -/
def VERSION : Nat := 1

/-- `StoreData`: the immutable snapshot replaced wholesale on every mutation.
Watch handles (`Disposable`) and pending promises are modelled by numeric
identifiers. `trackedNode` is the pair `(rootKey, nodeKey)`. -/
structure StoreData where
  childKeyMap : List (Key × List Key)
  isDirtyMap : List (Key × Bool)
  expandedKeysByRoot : List (Key × List Key)
  trackedNode : Option (Key × Key)
  previouslyExpanded : List (Key × List (Key × List Key))
  isLoadingMap : List (Key × Nat)
  rootKeys : List Key
  selectedKeysByRoot : List (Key × List Key)
  subscriptionMap : List (Key × Nat)
  vcsStatusesByRoot : List (Key × List (Key × Int))
deriving DecidableEq, Repr

/-- External effects of the store, recorded in order. -/
inductive Ev where
  /-- the debounced or flushed change notification reaching subscribers -/
  | emitChange
  /-- `FileTreeHelpers.fetchChildren`, the external listing call -/
  | listCall (k : Key)
  /-- a watch handle acquired by `directory.onDidChange` -/
  | acquireWatch (k : Key) (h : Nat)
  /-- `subscription.dispose()` -/
  | disposeWatch (k : Key) (h : Nat)
  /-- `logger.error` for a failed children fetch -/
  | logFetchError (k : Key)
  /-- `logger.error` for a failed watch acquisition -/
  | logWatchError (k : Key)
deriving DecidableEq, Repr

/-- The store together with its scheduling and effect bookkeeping.
`timers` are the live `setImmediate` handles, `timerHandle` is the `_timer`
field (the most recently armed handle, possibly stale). -/
structure Store where
  data : StoreData
  timers : List Nat
  timerHandle : Option Nat
  nextTimer : Nat
  nextPromise : Nat
  nextWatch : Nat
  events : List Ev
deriving DecidableEq, Repr

/-- `_getDefaults` of the source. -/
def getDefaults : StoreData :=
  { childKeyMap := []
    isDirtyMap := []
    expandedKeysByRoot := []
    trackedNode := none
    previouslyExpanded := []
    isLoadingMap := []
    rootKeys := []
    selectedKeysByRoot := []
    subscriptionMap := []
    vcsStatusesByRoot := [] }

/-- The freshly constructed store. -/
def initialStore : Store :=
  { data := getDefaults
    timers := []
    timerHandle := none
    nextTimer := 0
    nextPromise := 0
    nextWatch := 0
    events := [] }

/-- `_set` of the source: swap in the new snapshot if it changed; cancel the
pending debounce timer; emit immediately when flushing, otherwise arm a fresh
`setImmediate`. -/
def setD (st : Store) (d : StoreData) (flush : Bool) : Store :=
  if d = st.data then st
  else
    let live := match st.timerHandle with
      | some h => st.timers.filter (fun t => t ≠ h)
      | none => st.timers
    if flush then
      { st with data := d, timers := live, events := st.events ++ [Ev.emitChange] }
    else
      { st with data := d, timers := live ++ [st.nextTimer],
                timerHandle := some st.nextTimer, nextTimer := st.nextTimer + 1 }

/-- End of the scheduling tick: every live `setImmediate` callback fires,
each emitting one change notification. -/
def endTick (st : Store) : Store :=
  { st with timers := [], events := st.events ++ st.timers.map (fun _ => Ev.emitChange) }

/-- `getRootForKey`: the first root that is a prefix of the key
(`nodeKey.startsWith(rootKey)`, on character lists so that it computes
inside the kernel). -/
def getRootForKey (st : Store) (k : Key) : Option Key :=
  st.data.rootKeys.find? (fun r => r.data.isPrefixOf k.data)

/-- `isRootKey`. -/
def isRootKey (st : Store) (k : Key) : Bool :=
  st.data.rootKeys.contains k

/-- `_getExpandedKeys`. -/
def getExpandedKeys (st : Store) (r : Key) : List Key :=
  (aGet st.data.expandedKeysByRoot r).getD []

/-- `isExpanded`. -/
def isExpanded (st : Store) (r k : Key) : Bool :=
  (getExpandedKeys st r).contains k

/-- `getSelectedKeys(rootKey)` for a present root argument. -/
def getSelectedKeysFor (st : Store) (r : Key) : List Key :=
  (aGet st.data.selectedKeysByRoot r).getD []

/-- `getSelectedKeys()` with no root: merge of all per-root selections in
property order. -/
def getSelectedKeysAll (st : Store) : List Key :=
  st.data.selectedKeysByRoot.foldl (fun acc e => e.2.foldl sAdd acc) []

/-- `isSelected`. -/
def isSelected (st : Store) (r k : Key) : Bool :=
  (getSelectedKeysFor st r).contains k

/-- `getCachedChildKeys`. -/
def getCachedChildKeys (st : Store) (k : Key) : List Key :=
  (aGet st.data.childKeyMap k).getD []

/-- `isDirty` lookup (truthiness of `isDirtyMap[k]`). -/
def isDirty (st : Store) (k : Key) : Bool :=
  (aGet st.data.isDirtyMap k).getD false

/-- `isLoading` / `_getLoading`. -/
def getLoading (st : Store) (k : Key) : Option Nat :=
  aGet st.data.isLoadingMap k

/-- `_setExpandedKeys`. -/
def setExpandedKeysF (st : Store) (r : Key) (ks : List Key) : Store :=
  setD st { st.data with expandedKeysByRoot := aSet st.data.expandedKeysByRoot r ks } false

/-- `_setSelectedKeys`: clears the tracked node (without debouncing concerns,
plain `_set`) and stores the new per-root selection. -/
def setSelectedKeysF (st : Store) (r : Key) (ks : List Key) : Store :=
  let st := setD st { st.data with trackedNode := none } false
  setD st { st.data with selectedKeysByRoot := aSet st.data.selectedKeysByRoot r ks } false

/-- `_deleteSelectedKeys`. -/
def deleteSelectedKeysF (st : Store) (r : Key) : Store :=
  setD st { st.data with selectedKeysByRoot := aDel st.data.selectedKeysByRoot r } false

/-- `_checkTrackedNode`: drop the tracked node once the loading map is empty. -/
def checkTrackedNode (st : Store) : Store :=
  if st.data.trackedNode.isSome ∧ st.data.isLoadingMap = [] then
    setD st { st.data with trackedNode := none } false
  else st

/-- `_setLoading`. -/
def setLoadingF (st : Store) (k : Key) (p : Nat) : Store :=
  setD st { st.data with isLoadingMap := aSet st.data.isLoadingMap k p } false

/-- `_clearLoading`. -/
def clearLoading (st : Store) (k : Key) : Store :=
  let st := setD st { st.data with isLoadingMap := aDel st.data.isLoadingMap k } false
  checkTrackedNode st

/-- `_addSubscription`.  `watchOK k` tells whether the watch collaborator
(`directory.onDidChange`) succeeds; on failure the error is logged and the
store proceeds unsubscribed.  `getDirectoryByKey` (modelled from the spec)
yields a directory exactly for container keys. -/
def addSubscription (watchOK : Key → Bool) (st : Store) (k : Key) : Store :=
  if ¬ isDirKey k then st
  else
    let st := setD st { st.data with isDirtyMap := aDel st.data.isDirtyMap k } false
    if (aGet st.data.subscriptionMap k).isSome then st
    else if watchOK k then
      let h := st.nextWatch
      let st := { st with nextWatch := h + 1, events := st.events ++ [Ev.acquireWatch k h] }
      setD st { st.data with subscriptionMap := aSet st.data.subscriptionMap k h } false
    else
      { st with events := st.events ++ [Ev.logWatchError k] }

/-- `_removeSubscription`: dispose, remove and mark dirty only when no other
root still has the key expanded. -/
def removeSubscription (st : Store) (r k : Key) : Store :=
  match aGet st.data.subscriptionMap k with
  | none => st
  | some h =>
    if st.data.rootKeys.any (fun r' => r' ≠ r && isExpanded st r' k) then st
    else
      let st := { st with events := st.events ++ [Ev.disposeWatch k h] }
      let st := setD st { st.data with subscriptionMap := aDel st.data.subscriptionMap k } false
      setD st { st.data with isDirtyMap := aSet st.data.isDirtyMap k true } false

/-- `_removeAllSubscriptions`: unconditional dispose (purge path). -/
def removeAllSubscriptions (st : Store) (k : Key) : Store :=
  match aGet st.data.subscriptionMap k with
  | none => st
  | some h =>
    let st := { st with events := st.events ++ [Ev.disposeWatch k h] }
    setD st { st.data with subscriptionMap := aDel st.data.subscriptionMap k } false

/-- `_fetchChildKeys`: reuse the pending promise if one exists, otherwise
issue the external listing call, remember the promise and return it. -/
def fetchChildKeys (st : Store) (k : Key) : Nat × Store :=
  match getLoading st k with
  | some p => (p, st)
  | none =>
    let p := st.nextPromise
    let st := { st with nextPromise := p + 1, events := st.events ++ [Ev.listCall k] }
    (p, setLoadingF st k p)

/-- `getChildKeys`: returns the cached children, queueing a fetch when they
are missing or dirty (otherwise clearing the scroll-tracking state). -/
def getChildKeys (st : Store) (r k : Key) : List Key × Store :=
  let ck := aGet st.data.childKeyMap k
  if ck.isNone || isDirty st k then
    (ck.getD [], (fetchChildKeys st k).2)
  else
    (ck.getD [], checkTrackedNode st)

/-- `_expandNode`: expand the node, then re-expand the children recorded by a
previous collapse; note that the source reads `previouslyExpanded[rootKey]`
once before the recursion and writes back that stale snapshot (minus the
node's own entry) afterwards.  The fuel bounds the recursion depth: the
`for childKey of previouslyExpanded[nodeKey]` loop is a fold whose recursive
calls run at depth `fuel`. -/
def expandNode : Nat → Store → Key → Key → Option Store
  | 0, _, _, _ => none
  | fuel + 1, st, r, k =>
    let st1 := setExpandedKeysF st r (sAdd (getExpandedKeys st r) k)
    let pe := (aGet st1.data.previouslyExpanded r).getD []
    match aGet pe k with
    | none => some st1
    | some cks =>
      match cks.foldl (fun acc c => acc.bind (fun s => expandNode fuel s r c)) (some st1) with
      | none => none
      | some st2 =>
        some (setD st2 { st2.data with
          previouslyExpanded := aSet st2.data.previouslyExpanded r (aDel pe k) } false)

/-- The unselect step of the `childKeys.forEach` loop of `_collapseNode`:
if the child is in the (loop-local) `selectedKeys` set, delete it there and
store the result. -/
def collapseSel (r c : Key) : Store × Option (List Key) → Store × Option (List Key)
  | (st, some S) =>
    if c ∈ S then (setSelectedKeysF st r (sDel S c), some (sDel S c))
    else (st, some S)
  | (st, none) => (st, none)

/-- One iteration of the `childKeys.forEach` loop of `_collapseNode`:
`collapse` performs the recursive `_collapseNode` call (at the given depth
budget), the middle component is the local `selectedKeys` variable of the
source (captured once before the loop and NOT refreshed after recursive
calls), the last accumulates `expandedChildKeys`. -/
def collapseStep (collapse : Store → Key → Option Store) (r : Key)
    (acc : Option (Store × Option (List Key) × List Key)) (c : Key) :
    Option (Store × Option (List Key) × List Key) :=
  match acc with
  | none => none
  | some a =>
    let p := collapseSel r c (a.1, a.2.1)
    if isDirKey c && isExpanded p.1 r c then
      match collapse p.1 c with
      | none => none
      | some st2 => some (st2, p.2, a.2.2 ++ [c])
    else some (p.1, p.2, a.2.2)

/-- `_collapseNode`: unselect and collapse the children (recording which ones
were expanded), store the record in `previouslyExpanded`, un-expand the node
and release its subscription. -/
def collapseNode : Nat → Store → Key → Key → Option Store
  | 0, _, _, _ => none
  | fuel + 1, st, r, k =>
    let childKeys := aGet st.data.childKeyMap k
    let sel0 := aGet st.data.selectedKeysByRoot r
    match (match childKeys with
           | none => some (st, sel0, [])
           | some cks =>
             cks.foldl (collapseStep (fun s c => collapseNode fuel s r c) r)
               (some (st, sel0, []))) with
    | none => none
    | some a =>
      let st1 := a.1
      let eck := a.2.2
      let pe := (aGet st1.data.previouslyExpanded r).getD []
      let pe' := if eck = [] then aDel pe k else aSet pe k eck
      let st2 := setD st1 { st1.data with
        previouslyExpanded := aSet st1.data.previouslyExpanded r pe' } false
      let st3 := setExpandedKeysF st2 r (sDel (getExpandedKeys st2 r) k)
      some (removeSubscription st3 r k)

/-- The `Object.keys(expandedKeysByRoot).forEach` loop of `_purgeDirectory`:
remove the purged key from every root's expansion set (iterating over the
snapshot taken at entry, as the source does). -/
def stripExpanded (st : Store) (k : Key) : Store :=
  st.data.expandedKeysByRoot.foldl
    (fun st (e : Key × List Key) =>
      if e.2.contains k then setExpandedKeysF st e.1 (sDel e.2 k) else st) st

/-- The `Object.keys(selectedKeysByRoot).forEach` loop of `_purgeDirectory`. -/
def stripSelected (st : Store) (k : Key) : Store :=
  st.data.selectedKeysByRoot.foldl
    (fun st (e : Key × List Key) =>
      if e.2.contains k then setSelectedKeysF st e.1 (sDel e.2 k) else st) st

/-- The unconditional cleanup tail of `_purgeDirectory`: dispose the node's
subscription and strip it from every root's expansion and selection sets. -/
def purgeTail (st : Store) (k : Key) : Store :=
  stripSelected (stripExpanded (removeAllSubscriptions st k) k) k

/-- A `forEach` loop purging the children that pass the gate (`isDirKey` in
`_purgeDirectory`, "directory missing from the new list" in
`_setChildKeys`). -/
def purgeList (purge : Store → Key → Option Store) (gate : Key → Bool) :
    Store → List Key → Option Store
  | st, [] => some st
  | st, c :: rest =>
    if gate c then
      match purge st c with
      | none => none
      | some st' => purgeList purge gate st' rest
    else purgeList purge gate st rest

/-- `_purgeDirectory`: recursively purge the cached directory children, drop
the node's own child list, dispose its subscription unconditionally, and
strip the node from every root's expansion and selection sets.  The fuel
bounds the recursion depth. -/
def purgeDirectory : Nat → Store → Key → Option Store
  | 0, _, _ => none
  | fuel + 1, st, k =>
    match (match aGet st.data.childKeyMap k with
           | none => some st
           | some cks =>
             match purgeList (purgeDirectory fuel) isDirKey st cks with
             | none => none
             | some st1 =>
               some (setD st1 { st1.data with
                 childKeyMap := aDel st1.data.childKeyMap k } false)) with
    | none => none
    | some st2 => some (purgeTail st2 k)

/-- `_purgeRoot`. -/
def purgeRoot (st : Store) (r : Key) : Store :=
  let st := match aGet st.data.expandedKeysByRoot r with
    | some eks =>
      let st := eks.foldl (fun st k => removeSubscription st r k) st
      setD st { st.data with expandedKeysByRoot := aDel st.data.expandedKeysByRoot r } false
    | none => st
  let st := setD st { st.data with selectedKeysByRoot := aDel st.data.selectedKeysByRoot r } false
  let st := match aGet st.data.childKeyMap r with
    | some cks =>
      let st := cks.foldl (fun st c =>
        if isDirKey c then
          setD st { st.data with childKeyMap := aDel st.data.childKeyMap c } false
        else st) st
      setD st { st.data with childKeyMap := aDel st.data.childKeyMap r } false
    | none => st
  setD st { st.data with vcsStatusesByRoot := aDel st.data.vcsStatusesByRoot r } false

/-- `_setRootKeys`: purge the roots that went away, then store the new list. -/
def setRootKeys (st : Store) (newRoots : List Key) : Store :=
  let st := st.data.rootKeys.foldl
    (fun st r => if newRoots.contains r then st else purgeRoot st r) st
  setD st { st.data with rootKeys := newRoots } false

/-- `_setChildKeys`: purge every cached directory child absent from the new
list, then install the new list. -/
def setChildKeys (fuel : Nat) (st : Store) (k : Key) (cks : List Key) : Option Store :=
  match aGet st.data.childKeyMap k with
  | some old =>
    match purgeList (purgeDirectory fuel) (fun c => isDirKey c && !cks.contains c) st old with
    | none => none
    | some st1 =>
      some (setD st1 { st1.data with childKeyMap := aSet st1.data.childKeyMap k cks } false)
  | none =>
    some (setD st { st.data with childKeyMap := aSet st.data.childKeyMap k cks } false)

/-- `_createChild`. -/
def createChild (fuel : Nat) (st : Store) (k c : Key) : Option Store :=
  match setChildKeys fuel st k [c] with
  | none => none
  | some st1 => some (setD st1 { st1.data with isDirtyMap := aSet st1.data.isDirtyMap k true } false)

/-- The fulfilled-promise continuation of `_fetchChildKeys`: discard the
result when the key's root is gone (the loading entry then stays behind),
otherwise install the children, subscribe, and clear the loading state. -/
def onFetchSuccess (watchOK : Key → Bool) (fuel : Nat) (st : Store) (k : Key)
    (cks : List Key) : Option Store :=
  if (getRootForKey st k).isNone then some st
  else
    match setChildKeys fuel st k cks with
    | none => none
    | some st1 =>
      let st2 := addSubscription watchOK st1 k
      some (clearLoading st2 k)

/-- The rejection handler of `_fetchChildKeys`: log, collapse the node in its
current root (if any), and clear the loading state. -/
def onFetchFailure (fuel : Nat) (st : Store) (k : Key) : Option Store :=
  let st := { st with events := st.events ++ [Ev.logFetchError k] }
  match getRootForKey st k with
  | some r =>
    match collapseNode fuel st r k with
    | none => none
    | some st1 => some (clearLoading st1 k)
  | none => some (clearLoading st k)

/-- `_onDirectoryChange` (watch callback). -/
def onDirectoryChange (st : Store) (k : Key) : Store :=
  (fetchChildKeys st k).2

/-- `_setVcsStatuses`. -/
def setVcsStatuses (st : Store) (r : Key) (sts : List (Key × Int)) : Store :=
  if aGet st.data.vcsStatusesByRoot r = some sts then st
  else setD st { st.data with vcsStatusesByRoot := aSet st.data.vcsStatusesByRoot r sts } false

/-- `_setSelectedKeysByRoot` (selection forest). -/
def setSelectedKeysByRoot (st : Store) (m : List (Key × List Key)) : Store :=
  st.data.rootKeys.foldl (fun st r =>
    match aGet m r with
    | some ks => setSelectedKeysF st r ks
    | none => deleteSelectedKeysF st r) st

/-- `_setTrackedNode`: a fresh `{nodeKey, rootKey}` object is allocated on
every call, so the reference comparisons in `setProperty` and `_set` always
report a change and the notification is always flushed immediately. -/
def setTrackedNode (st : Store) (r k : Key) : Store :=
  let live := match st.timerHandle with
    | some h => st.timers.filter (fun t => t ≠ h)
    | none => st.timers
  { st with data := { st.data with trackedNode := some (r, k) },
            timers := live, events := st.events ++ [Ev.emitChange] }

/-- `getSingleSelectedNode`: non-null only when `selectedKeysByRoot` has
exactly one property and its selection has exactly one member. -/
def getSingleSelectedNode (st : Store) : Option (Key × Key) :=
  match st.data.selectedKeysByRoot with
  | [(r, _)] =>
    match getSelectedKeysFor st r with
    | [x] => some (r, x)
    | _ => none
  | _ => none

/-- The `for childKey of childKeys` body of `getVisibleNodes`: push
directory children on the work list when the popped key is expanded, append
leaf children to the visible list. -/
def visPush (st : Store) (rootKey key : Key) (cks : List Key)
    (p0 : List Key × List (Key × Key)) : List Key × List (Key × Key) :=
  cks.foldl (fun p c =>
    if isDirKey c then
      if isExpanded st rootKey key then (p.1 ++ [c], p.2) else p
    else (p.1, p.2 ++ [(key, c)])) p0

/-- The `while` loop of `getVisibleNodes`; the work list has its top at the
END (`Array.pop`).  Nodes are `(rootKey argument, nodeKey)` pairs exactly as
passed to `getNode` by the source. -/
def visibleLoop (fuel : Nat) (st : Store) (rootKey : Key) (stack : List Key)
    (acc : List (Key × Key)) : Option (List (Key × Key)) :=
  match fuel with
  | 0 => none
  | fuel' + 1 =>
    match stack.getLast? with
    | none => some acc
    | some key =>
      match aGet st.data.childKeyMap key with
      | none => visibleLoop fuel' st rootKey stack.dropLast (acc ++ [(key, key)])
      | some cks =>
        if isDirty st key then
          visibleLoop fuel' st rootKey stack.dropLast (acc ++ [(key, key)])
        else
          visibleLoop fuel' st rootKey
            (visPush st rootKey key cks (stack.dropLast, acc ++ [(key, key)])).1
            (visPush st rootKey key cks (stack.dropLast, acc ++ [(key, key)])).2

/-- `getVisibleNodes`. -/
def getVisibleNodes (fuel : Nat) (st : Store) (rootKey : Key) :
    Option (List (Key × Key)) :=
  if ¬ isRootKey st rootKey then some []
  else if ¬ isExpanded st rootKey rootKey then some [(rootKey, rootKey)]
  else visibleLoop fuel st rootKey [rootKey] []

/-- `mapValues` of the source. -/
def mapValues {α β : Type} (m : List (Key × α)) (f : α → β) : List (Key × β) :=
  m.map (fun e => (e.1, f e.2))

/-- `new Immutable.Set(keys)` / `new Immutable.OrderedSet(keys)`. -/
def newSet (l : List Key) : List Key :=
  l.foldl sAdd []

/-- `ExportStoreData`.  `childKeyMap` values are optional because the source
copies `data.childKeyMap[nodeKey]` for every expanded key, storing an
`undefined`-valued property when that key has no cached children. -/
structure ExportData where
  version : Nat
  childKeyMap : List (Key × Option (List Key))
  expandedKeysByRoot : List (Key × List Key)
  rootKeys : List Key
  selectedKeysByRoot : List (Key × List Key)
deriving DecidableEq, Repr

/-- `exportData`: the child-key map restricted to the expanded keys, the
expansion and selection sets as arrays, and the schema version. -/
def exportData (st : Store) : ExportData :=
  let ckm := st.data.expandedKeysByRoot.foldl
    (fun m e => e.2.foldl (fun m nk => aSet m nk (aGet st.data.childKeyMap nk)) m) []
  { version := VERSION
    childKeyMap := ckm
    expandedKeysByRoot := mapValues st.data.expandedKeysByRoot id
    rootKeys := st.data.rootKeys
    selectedKeysByRoot := mapValues st.data.selectedKeysByRoot id }

/-- `loadData`: a no-op on version mismatch; otherwise replace the snapshot
(defaults plus the imported roots, expansions, selections and child lists;
`undefined`-valued imported child entries yield no map entry) and re-arm a
subscription and a fetch for every imported child-map property. -/
def loadData (watchOK : Key → Bool) (st : Store) (d : ExportData) : Store :=
  if d.version ≠ VERSION then st
  else
    let newData := { getDefaults with
      childKeyMap := d.childKeyMap.foldr
        (fun e m => match e.2 with | some v => (e.1, v) :: m | none => m) []
      expandedKeysByRoot := mapValues d.expandedKeysByRoot newSet
      rootKeys := d.rootKeys
      selectedKeysByRoot := mapValues d.selectedKeysByRoot newSet }
    let st := { st with data := newData }
    d.childKeyMap.foldl (fun st e =>
      let st1 := addSubscription watchOK st e.1
      (fetchChildKeys st1 e.1).2) st

/-- `reset`: dispose every subscription and return to the default snapshot. -/
def resetStore (st : Store) : Store :=
  let st := st.data.subscriptionMap.foldl
    (fun st e => { st with events := st.events ++ [Ev.disposeWatch e.1 e.2] }) st
  { st with data := getDefaults }

/-- The store states reachable through the dispatcher actions, the
asynchronous fetch continuations, the watch callbacks, the query side
effects, persistence, and tick boundaries.  `watchOK` environments and fuels
are arbitrary at each step; fetch continuations fire only for pending
promises. -/
inductive Reachable : Store → Prop where
  | init : Reachable initialStore
  | setRoots {s roots} : Reachable s → Reachable (setRootKeys s roots)
  | expand {s f r k s'} : Reachable s → expandNode f s r k = some s' → Reachable s'
  | collapse {s f r k s'} : Reachable s → collapseNode f s r k = some s' → Reachable s'
  | select {s r ks} : Reachable s → Reachable (setSelectedKeysF s r ks)
  | selectForest {s m} : Reachable s → Reachable (setSelectedKeysByRoot s m)
  | createChildStep {s f p c s'} : Reachable s → createChild f s p c = some s' → Reachable s'
  | setVcs {s r sts} : Reachable s → Reachable (setVcsStatuses s r sts)
  | track {s r k} : Reachable s → Reachable (setTrackedNode s r k)
  | query {s r k} : Reachable s → Reachable (getChildKeys s r k).2
  | dirChange {s k} : Reachable s → Reachable (onDirectoryChange s k)
  | fetchOk {s w f k p cks s'} : Reachable s → getLoading s k = some p →
      onFetchSuccess w f s k cks = some s' → Reachable s'
  | fetchFail {s f k p s'} : Reachable s → getLoading s k = some p →
      onFetchFailure f s k = some s' → Reachable s'
  | tick {s} : Reachable s → Reachable (endTick s)
  | load {s w d} : Reachable s → Reachable (loadData w s d)
  | reset {s} : Reachable s → Reachable (resetStore s)

/-! ### Basic lemmas about the map and set helpers -/

theorem aGet_map_set {α : Type} (m : List (Key × α)) (k k' : Key) (v : α) :
    aGet (m.map (fun e => if e.1 = k then (k, v) else e)) k' =
      if k' = k then (aGet m k).map (fun _ => v) else aGet m k' := by
  induction m with
  | nil => by_cases h : k' = k <;> simp [aGet, h]
  | cons e t ih =>
    simp only [List.map_cons]
    by_cases h1 : e.1 = k
    · rw [if_pos h1]
      by_cases h2 : k' = k
      · subst h2; simp [aGet, h1, ih]
      · have h2' : ¬ k = k' := fun hh => h2 hh.symm
        simp [aGet, h1, h2, h2', ih]
    · rw [if_neg h1]
      by_cases h2 : e.1 = k'
      · have hkk : ¬ k' = k := fun hk => h1 (h2.trans hk)
        simp [aGet, h2, hkk]
      · simp [aGet, h1, h2, ih]

@[simp] theorem aGet_aSet_self {α : Type} [DecidableEq α] (m : List (Key × α))
    (k : Key) (v : α) : aGet (aSet m k v) k = some v := by
  unfold aSet
  cases h : aGet m k with
  | none =>
    induction m with
    | nil => simp [aGet]
    | cons e t ih =>
      by_cases he : e.1 = k
      · simp [aGet, he] at h
      · simp [aGet, he] at h ⊢
        exact ih h
  | some v' =>
    by_cases hv : v' = v
    · simp [hv] at h ⊢
      simp [h]
    · simp [hv, aGet_map_set, h]

@[simp] theorem aGet_aSet_ne {α : Type} [DecidableEq α] (m : List (Key × α))
    {k k' : Key} (v : α) (h : k' ≠ k) : aGet (aSet m k v) k' = aGet m k' := by
  unfold aSet
  cases hm : aGet m k with
  | none =>
    have hkk : ¬ k = k' := fun hk => h hk.symm
    induction m with
    | nil => simp [aGet, hkk]
    | cons e t ih =>
      by_cases he : e.1 = k
      · simp [aGet, he] at hm
      · by_cases he' : e.1 = k' <;> simp [aGet, he, he'] at hm ⊢
        exact ih hm
  | some v' =>
    by_cases hv : v' = v
    · simp [hv]
    · simp [hv, aGet_map_set, h]

theorem aGet_entriesRemove_self {α : Type} (m : List (Key × α)) (k : Key) :
    aGet (entriesRemove m k) k = none := by
  induction m with
  | nil => simp [entriesRemove, aGet]
  | cons e t ih =>
    by_cases he : e.1 = k <;> simp [entriesRemove, he, aGet, ih]

@[simp] theorem aGet_aDel_self {α : Type} (m : List (Key × α)) (k : Key) :
    aGet (aDel m k) k = none := by
  unfold aDel
  cases hm : aGet m k with
  | none => simp [hm]
  | some v => simp [aGet_entriesRemove_self]

theorem aGet_entriesRemove_ne {α : Type} (m : List (Key × α)) {k k' : Key}
    (h : k' ≠ k) : aGet (entriesRemove m k) k' = aGet m k' := by
  induction m with
  | nil => simp [entriesRemove]
  | cons e t ih =>
    have hkk : ¬ k = k' := fun hk => h hk.symm
    by_cases he : e.1 = k
    · have he' : ¬ e.1 = k' := fun hk => h (hk.symm.trans he)
      simp [entriesRemove, he, aGet, he', ih, hkk]
    · by_cases he' : e.1 = k' <;> simp [entriesRemove, aGet, he, he', ih, hkk, h]

@[simp] theorem aGet_aDel_ne {α : Type} (m : List (Key × α)) {k k' : Key}
    (h : k' ≠ k) : aGet (aDel m k) k' = aGet m k' := by
  unfold aDel
  cases hm : (aGet m k).isSome <;> simp [hm, aGet_entriesRemove_ne m h]

@[simp] theorem mem_sAdd {s : List Key} {k x : Key} :
    x ∈ sAdd s k ↔ x ∈ s ∨ x = k := by
  unfold sAdd
  by_cases h : k ∈ s
  · simp only [h, if_true]
    constructor
    · exact Or.inl
    · rintro (hx | rfl)
      · exact hx
      · exact h
  · simp [h]

theorem mem_listRemove {s : List Key} {k x : Key} :
    x ∈ listRemove s k ↔ x ∈ s ∧ x ≠ k := by
  induction s with
  | nil => simp [listRemove]
  | cons y t ih =>
    by_cases hy : y = k
    · subst hy
      simp only [listRemove, if_true, ih, List.mem_cons]
      constructor
      · rintro ⟨hx, hne⟩; exact ⟨Or.inr hx, hne⟩
      · rintro ⟨hx | hx, hne⟩
        · exact absurd hx hne
        · exact ⟨hx, hne⟩
    · simp only [listRemove, hy, if_false, List.mem_cons, ih]
      constructor
      · rintro (rfl | ⟨hx, hne⟩)
        · exact ⟨Or.inl rfl, fun hk => hy (by simpa using hk)⟩
        · exact ⟨Or.inr hx, hne⟩
      · rintro ⟨hx | hx, hne⟩
        · exact Or.inl hx
        · exact Or.inr ⟨hx, hne⟩

@[simp] theorem mem_sDel {s : List Key} {k x : Key} :
    x ∈ sDel s k ↔ x ∈ s ∧ x ≠ k := by
  unfold sDel
  by_cases h : k ∈ s
  · simp [h, mem_listRemove]
  · simp only [h, if_false]
    constructor
    · intro hx
      exact ⟨hx, fun hk => h (hk ▸ hx)⟩
    · exact fun hx => hx.1

/-! ### Projection lemmas for `_set` and the field setters -/

@[simp] theorem setD_data (st : Store) (d : StoreData) (fl : Bool) :
    (setD st d fl).data = d := by
  unfold setD
  by_cases h : d = st.data
  · simp [h]
  · cases fl <;> simp [h]

@[simp] theorem setD_false_events (st : Store) (d : StoreData) :
    (setD st d false).events = st.events := by
  unfold setD
  by_cases h : d = st.data <;> simp [h]

@[simp] theorem setD_nextPromise (st : Store) (d : StoreData) (fl : Bool) :
    (setD st d fl).nextPromise = st.nextPromise := by
  unfold setD
  by_cases h : d = st.data
  · simp [h]
  · cases fl <;> simp [h]

@[simp] theorem setD_nextWatch (st : Store) (d : StoreData) (fl : Bool) :
    (setD st d fl).nextWatch = st.nextWatch := by
  unfold setD
  by_cases h : d = st.data
  · simp [h]
  · cases fl <;> simp [h]

@[simp] theorem setExpandedKeysF_data (st : Store) (r : Key) (ks : List Key) :
    (setExpandedKeysF st r ks).data =
      { st.data with expandedKeysByRoot := aSet st.data.expandedKeysByRoot r ks } := by
  unfold setExpandedKeysF
  exact setD_data ..

@[simp] theorem setSelectedKeysF_data (st : Store) (r : Key) (ks : List Key) :
    (setSelectedKeysF st r ks).data =
      { st.data with
          trackedNode := none
          selectedKeysByRoot := aSet st.data.selectedKeysByRoot r ks } := by
  unfold setSelectedKeysF
  simp

/-! ## C9: `getSingleSelectedNode` -/

/-- A run of the dispatcher leaving one root with a single selected key and a
second root with an empty (but present) selection entry. -/
def c9State : Store :=
  setSelectedKeysF
    (setSelectedKeysF (setRootKeys initialStore ["r1/", "r2/"]) "r1/" ["r1/x"])
    "r2/" []

/-- C9 counterexample: in the reachable state `c9State` exactly one root
("r1/") has a non-empty selection and that selection has exactly one member,
yet `getSingleSelectedNode` returns null, because the source counts the
PROPERTIES of `selectedKeysByRoot` (including empty leftover sets) rather
than the roots with non-empty selections. -/
theorem c9_counterexample :
    Reachable c9State ∧
    c9State.data.rootKeys.filter (fun r => getSelectedKeysFor c9State r ≠ []) = ["r1/"] ∧
    getSelectedKeysFor c9State "r1/" = ["r1/x"] ∧
    getSingleSelectedNode c9State = none := by
  refine ⟨?_, by decide, by decide, by decide⟩
  exact Reachable.select (Reachable.select (Reachable.setRoots Reachable.init))

/-- C9 (amended): `getSingleSelectedNode()` returns a node if and only if
`selectedKeysByRoot` holds exactly one per-root entry (empty or not) and that
entry's selection contains exactly one key; in every other state it returns
null. -/
theorem c9_single_selected_node_characterization (st : Store) :
    (getSingleSelectedNode st).isSome ↔
      ∃ r ks, st.data.selectedKeysByRoot = [(r, ks)] ∧ ks.length = 1 := by
  unfold getSingleSelectedNode getSelectedKeysFor
  generalize hm : st.data.selectedKeysByRoot = m
  cases m with
  | nil => simp
  | cons e t =>
    obtain ⟨r, ks⟩ := e
    cases t with
    | cons e2 t2 => simp
    | nil =>
      simp only [aGet, if_pos rfl, Option.getD_some]
      cases ks with
      | nil => simp
      | cons x xs =>
        cases xs with
        | nil => exact iff_of_true rfl ⟨r, [x], rfl, rfl⟩
        | cons y ys => simp

/-! ## C2: subscription lifecycle -/

/-- A reachable state with a root expanded whose initial children fetch has
not resolved yet: no subscription exists. -/
def c2State : Store :=
  (expandNode 1 (setRootKeys initialStore ["a/"]) "a/" "a/").getD initialStore

/-- C2 counterexample: in the reachable state `c2State` the key "a/" is
expanded under root "a/" but `subscriptionMap` has no entry for it (the watch
is only acquired when the children fetch resolves), so the claimed
equivalence between `subscriptionMap` membership and being expanded under
some root fails. -/
theorem c2_counterexample :
    Reachable c2State ∧
    isExpanded c2State "a/" "a/" = true ∧
    c2State.data.rootKeys = ["a/"] ∧
    aGet c2State.data.subscriptionMap "a/" = none ∧
    ¬ (∀ k : Key, (aGet c2State.data.subscriptionMap k).isSome ↔
        ∃ r ∈ c2State.data.rootKeys, isExpanded c2State r k) := by
  refine ⟨?_, by decide, by decide, by decide, ?_⟩
  · exact @Reachable.expand (setRootKeys initialStore ["a/"]) 1 "a/" "a/" c2State
      (Reachable.setRoots Reachable.init) rfl
  · intro h
    have hx := (h "a/").mpr ⟨"a/", by decide, by decide⟩
    rw [show aGet c2State.data.subscriptionMap "a/" = none from by decide] at hx
    exact absurd hx (by decide)

/-- C2 (amended): the subscription-map/expansion equivalence does not hold in
every reachable state (a key can be expanded while its fetch is pending, and
a subscription can outlive a collapse while another root expands the key);
what does hold of the code is the acquire/release discipline: while a watch
handle is held, `_addSubscription` is a no-op (the handle is acquired at most
once), and `_removeSubscription(root, key)` leaves everything untouched when
another root still has the key expanded, and otherwise disposes the handle,
removes the map entry and marks the key dirty. -/
theorem c2_subscription_discipline (st : Store) (w : Key → Bool) (r k : Key)
    (h0 : Nat) (hsub : aGet st.data.subscriptionMap k = some h0) :
    ((addSubscription w st k).data.subscriptionMap = st.data.subscriptionMap ∧
      (addSubscription w st k).events = st.events) ∧
    (st.data.rootKeys.any (fun r' => r' ≠ r && isExpanded st r' k) = true →
      removeSubscription st r k = st) ∧
    (st.data.rootKeys.any (fun r' => r' ≠ r && isExpanded st r' k) = false →
      aGet (removeSubscription st r k).data.subscriptionMap k = none ∧
      aGet (removeSubscription st r k).data.isDirtyMap k = some true ∧
      (removeSubscription st r k).events = st.events ++ [Ev.disposeWatch k h0]) := by
  refine ⟨?_, ?_, ?_⟩
  · unfold addSubscription
    by_cases hd : isDirKey k
    · have hmap : (setD st { st.data with isDirtyMap := aDel st.data.isDirtyMap k }
          false).data.subscriptionMap = st.data.subscriptionMap := by simp
      simp [hd, hmap, hsub]
    · simp [hd]
  · intro hother
    unfold removeSubscription
    rw [hsub]
    simp only [hother, if_true]
  · intro hother
    unfold removeSubscription
    rw [hsub]
    simp only [hother, if_false, Bool.false_eq_true]
    simp

/-- Witness for the amended C2 theorem: a concrete store holding the only
watch on "a/b/" under the sole root "a/". -/
def c2WitnessState : Store :=
  { initialStore with data := { getDefaults with
      rootKeys := ["a/"]
      expandedKeysByRoot := [("a/", ["a/", "a/b/"])]
      childKeyMap := [("a/", ["a/b/"]), ("a/b/", [])]
      subscriptionMap := [("a/b/", 7)] } }

theorem c2_subscription_discipline_witness :
    ((addSubscription (fun _ => true) c2WitnessState "a/b/").data.subscriptionMap =
        c2WitnessState.data.subscriptionMap ∧
      (addSubscription (fun _ => true) c2WitnessState "a/b/").events =
        c2WitnessState.events) ∧
    (aGet (removeSubscription c2WitnessState "a/" "a/b/").data.subscriptionMap "a/b/" = none ∧
      aGet (removeSubscription c2WitnessState "a/" "a/b/").data.isDirtyMap "a/b/" = some true ∧
      (removeSubscription c2WitnessState "a/" "a/b/").events =
        c2WitnessState.events ++ [Ev.disposeWatch "a/b/" 7]) := by
  have H := c2_subscription_discipline c2WitnessState (fun _ => true) "a/" "a/b/" 7 (by decide)
  exact ⟨H.1, H.2.2 (by decide)⟩

/-! ## C3: fetch deduplication -/

theorem filter_key_eq_nil_of_aGet_none {α : Type} (m : List (Key × α)) (k : Key)
    (h : aGet m k = none) : m.filter (fun e => e.1 = k) = [] := by
  induction m with
  | nil => simp
  | cons e t ih =>
    by_cases he : e.1 = k
    · simp [aGet, he] at h
    · simp [aGet, he] at h
      simp [he, ih h]

theorem aSet_of_aGet_none {α : Type} [DecidableEq α] (m : List (Key × α))
    (k : Key) (v : α) (h : aGet m k = none) : aSet m k v = m ++ [(k, v)] := by
  unfold aSet
  rw [h]

/-- C3: while no fetch for `k` is pending and its children are uncached, a
`getChildKeys` call issues exactly one external listing call, installs the
single pending entry for `k` in the loading map, and a second `getChildKeys`
call in the same state changes nothing — in particular it makes no second
listing call — while `_fetchChildKeys` hands back the same pending promise. -/
theorem c3_fetch_deduplication (st : Store) (r k : Key)
    (hck : aGet st.data.childKeyMap k = none)
    (hld : getLoading st k = none) :
    (getChildKeys st r k).2.events = st.events ++ [Ev.listCall k] ∧
    getLoading (getChildKeys st r k).2 k = some st.nextPromise ∧
    ((getChildKeys st r k).2.data.isLoadingMap.filter (fun e => e.1 = k)).length = 1 ∧
    (getChildKeys (getChildKeys st r k).2 r k).2 = (getChildKeys st r k).2 ∧
    fetchChildKeys (getChildKeys st r k).2 k =
      (st.nextPromise, (getChildKeys st r k).2) := by
  have hfetch : fetchChildKeys st k =
      (st.nextPromise,
        setLoadingF
          { st with
              nextPromise := st.nextPromise + 1
              events := st.events ++ [Ev.listCall k] } k st.nextPromise) := by
    unfold fetchChildKeys
    rw [hld]
  have h1 : (getChildKeys st r k).2 =
      setLoadingF
        { st with
            nextPromise := st.nextPromise + 1
            events := st.events ++ [Ev.listCall k] } k st.nextPromise := by
    unfold getChildKeys
    rw [hck, hfetch]
    simp
  have hld1 : getLoading (getChildKeys st r k).2 k = some st.nextPromise := by
    rw [h1]
    unfold getLoading setLoadingF
    simp
  have hck1 : aGet (getChildKeys st r k).2.data.childKeyMap k = none := by
    rw [h1]
    unfold setLoadingF
    simpa using hck
  have hfetch1 : fetchChildKeys (getChildKeys st r k).2 k =
      (st.nextPromise, (getChildKeys st r k).2) := by
    unfold fetchChildKeys
    rw [hld1]
  refine ⟨?_, hld1, ?_, ?_, hfetch1⟩
  · rw [h1]
    unfold setLoadingF
    simp
  · rw [h1]
    unfold setLoadingF
    simp only [setD_data]
    rw [aSet_of_aGet_none _ _ _ hld]
    simp [filter_key_eq_nil_of_aGet_none _ _ hld]
  · have h2 : ∀ L : Store, aGet L.data.childKeyMap k = none →
        fetchChildKeys L k = (st.nextPromise, L) → (getChildKeys L r k).2 = L := by
      intro L hc hf
      unfold getChildKeys
      rw [hc, hf]
      simp
    exact h2 _ hck1 hfetch1

/-- Witness for C3 at the fresh store. -/
theorem c3_fetch_deduplication_witness :
    (getChildKeys initialStore "a/" "a/").2.events =
      initialStore.events ++ [Ev.listCall "a/"] ∧
    getLoading (getChildKeys initialStore "a/" "a/").2 "a/" =
      some initialStore.nextPromise ∧
    ((getChildKeys initialStore "a/" "a/").2.data.isLoadingMap.filter
      (fun e => e.1 = "a/")).length = 1 ∧
    (getChildKeys (getChildKeys initialStore "a/" "a/").2 "a/" "a/").2 =
      (getChildKeys initialStore "a/" "a/").2 ∧
    fetchChildKeys (getChildKeys initialStore "a/" "a/").2 "a/" =
      (initialStore.nextPromise, (getChildKeys initialStore "a/" "a/").2) :=
  c3_fetch_deduplication initialStore "a/" "a/" (by decide) (by decide)

/-! ## C5: debounced change notification -/

/-- A sequence of snapshots each differing from the one it replaces (the
"state-changing mutations" of the claim). -/
def ChainChanging : StoreData → List StoreData → Prop
  | _, [] => True
  | d0, d :: rest => d ≠ d0 ∧ ChainChanging d rest

/-- A batch of non-flushing `_set` swaps applied within one tick. -/
def applyBatch (st : Store) (ds : List StoreData) : Store :=
  ds.foldl (fun st d => setD st d false) st

theorem setD_false_of_ne (st : Store) (d : StoreData) (h : ¬ d = st.data) :
    setD st d false =
      { st with
          data := d
          timers := (match st.timerHandle with
            | some h0 => st.timers.filter (fun t => t ≠ h0)
            | none => st.timers) ++ [st.nextTimer]
          timerHandle := some st.nextTimer
          nextTimer := st.nextTimer + 1 } := by
  unfold setD
  rw [if_neg h]
  rfl

theorem applyBatch_armed (ds : List StoreData) :
    ∀ st : Store, ChainChanging st.data ds →
    (∃ h, st.timers = [h] ∧ st.timerHandle = some h) →
    (∃ h', (applyBatch st ds).timers = [h'] ∧
      (applyBatch st ds).timerHandle = some h') ∧
    (applyBatch st ds).events = st.events := by
  induction ds with
  | nil => exact fun st _ h => ⟨h, rfl⟩
  | cons d rest ih =>
    rintro st ⟨hne, hch⟩ ⟨h, hts, hth⟩
    have hstep : setD st d false =
        { st with
            data := d
            timers := [st.nextTimer]
            timerHandle := some st.nextTimer
            nextTimer := st.nextTimer + 1 } := by
      rw [setD_false_of_ne st d hne, hth, hts]
      simp
    have := ih (setD st d false) (by rw [hstep]; exact hch)
      (by rw [hstep]; exact ⟨st.nextTimer, rfl, rfl⟩)
    unfold applyBatch at this ⊢
    simp only [List.foldl_cons]
    refine ⟨this.1, ?_⟩
    rw [this.2, hstep]

/-- C5: starting a tick with no pending notification, any nonempty batch of
state-changing non-flushing mutations leaves exactly one armed timer, whose
end-of-tick firing delivers exactly one change notification (re-arming
cancelled every earlier timer); and a flushing mutation — setting the tracked
node — emits its own notification immediately, whatever is pending. -/
theorem c5_debounced_notification (st : Store) (ds : List StoreData)
    (hts : st.timers = []) (hne : ds ≠ []) (hch : ChainChanging st.data ds) :
    (endTick (applyBatch st ds)).events = st.events ++ [Ev.emitChange] ∧
    (endTick (applyBatch st ds)).timers = [] ∧
    (∀ (st' : Store) (r k : Key),
      (setTrackedNode st' r k).events = st'.events ++ [Ev.emitChange]) := by
  obtain ⟨d, rest, rfl⟩ : ∃ d rest, ds = d :: rest := by
    cases ds with
    | nil => exact absurd rfl hne
    | cons d rest => exact ⟨d, rest, rfl⟩
  obtain ⟨hne1, hch1⟩ := hch
  have hstep : setD st d false =
      { st with
          data := d
          timers := (match st.timerHandle with
            | some h0 => [].filter (fun t => t ≠ h0)
            | none => ([] : List Nat)) ++ [st.nextTimer]
          timerHandle := some st.nextTimer
          nextTimer := st.nextTimer + 1 } := by
    rw [setD_false_of_ne st d hne1, hts]
  have hstep' : setD st d false =
      { st with
          data := d
          timers := [st.nextTimer]
          timerHandle := some st.nextTimer
          nextTimer := st.nextTimer + 1 } := by
    rw [hstep]
    cases st.timerHandle <;> simp
  have harm := applyBatch_armed rest (setD st d false)
    (by rw [hstep']; exact hch1) (by rw [hstep']; exact ⟨st.nextTimer, rfl, rfl⟩)
  obtain ⟨⟨h', hts', hth'⟩, hev⟩ := harm
  have hbatch : applyBatch st (d :: rest) = applyBatch (setD st d false) rest := by
    unfold applyBatch
    simp
  have hev0 : (setD st d false).events = st.events := by rw [hstep']
  refine ⟨?_, ?_, fun st' r k => rfl⟩
  · rw [hbatch]
    unfold endTick
    rw [hts', hev, hev0]
    rfl
  · rw [hbatch]
    unfold endTick
    rfl

/-- Witness for C5: two successive root-list snapshots at the fresh store. -/
theorem c5_debounced_notification_witness :
    (endTick (applyBatch initialStore
        [{ getDefaults with rootKeys := ["a/"] },
         { getDefaults with rootKeys := ["b/"] }])).events =
      initialStore.events ++ [Ev.emitChange] ∧
    (endTick (applyBatch initialStore
        [{ getDefaults with rootKeys := ["a/"] },
         { getDefaults with rootKeys := ["b/"] }])).timers = [] ∧
    (∀ (st' : Store) (r k : Key),
      (setTrackedNode st' r k).events = st'.events ++ [Ev.emitChange]) :=
  c5_debounced_notification initialStore _ rfl (by simp)
    ⟨by decide, by decide, trivial⟩

/-! ## C6: fetch-failure recovery -/

/-- The store components that a `_collapseNode` cascade never touches,
together with the append-only discipline of the event trace. -/
def CollapseFrame (s s' : Store) : Prop :=
  s'.data.childKeyMap = s.data.childKeyMap ∧
  s'.data.isLoadingMap = s.data.isLoadingMap ∧
  s'.data.rootKeys = s.data.rootKeys ∧
  ∃ t, s'.events = s.events ++ t

theorem collapseFrame_refl (s : Store) : CollapseFrame s s :=
  ⟨rfl, rfl, rfl, [], by simp⟩

theorem collapseFrame_trans {a b c : Store} :
    CollapseFrame a b → CollapseFrame b c → CollapseFrame a c := by
  rintro ⟨h1, h2, h3, t1, ht1⟩ ⟨g1, g2, g3, t2, ht2⟩
  exact ⟨g1.trans h1, g2.trans h2, g3.trans h3, t1 ++ t2,
    by rw [ht2, ht1, List.append_assoc]⟩

theorem setSelectedKeysF_frame (st : Store) (r : Key) (ks : List Key) :
    CollapseFrame st (setSelectedKeysF st r ks) := by
  refine ⟨?_, ?_, ?_, [], ?_⟩ <;> simp [setSelectedKeysF]

theorem setExpandedKeysF_frame (st : Store) (r : Key) (ks : List Key) :
    CollapseFrame st (setExpandedKeysF st r ks) := by
  refine ⟨?_, ?_, ?_, [], ?_⟩ <;> simp [setExpandedKeysF]

theorem removeSubscription_frame (st : Store) (r k : Key) :
    CollapseFrame st (removeSubscription st r k) := by
  unfold removeSubscription
  split
  · exact collapseFrame_refl st
  · next hh heq =>
    split
    · exact collapseFrame_refl st
    · exact ⟨by simp, by simp, by simp, [Ev.disposeWatch k hh], by simp⟩

/-- `_removeSubscription` also never touches expansion, selection or the
`previouslyExpanded` record. -/
theorem removeSubscription_sets (st : Store) (r k : Key) :
    (removeSubscription st r k).data.expandedKeysByRoot = st.data.expandedKeysByRoot ∧
    (removeSubscription st r k).data.selectedKeysByRoot = st.data.selectedKeysByRoot ∧
    (removeSubscription st r k).data.previouslyExpanded = st.data.previouslyExpanded ∧
    (removeSubscription st r k).data.trackedNode = st.data.trackedNode := by
  unfold removeSubscription
  split
  · exact ⟨rfl, rfl, rfl, rfl⟩
  · split
    · exact ⟨rfl, rfl, rfl, rfl⟩
    · refine ⟨?_, ?_, ?_, ?_⟩ <;> simp

theorem collapseSel_frame (r c : Key) (p : Store × Option (List Key)) :
    CollapseFrame p.1 (collapseSel r c p).1 := by
  unfold collapseSel
  split
  · split
    · exact setSelectedKeysF_frame ..
    · exact collapseFrame_refl _
  · exact collapseFrame_refl _

theorem collapseStep_frame (g : Store → Key → Option Store) (r : Key)
    (hg : ∀ s c s2, g s c = some s2 → CollapseFrame s s2)
    (a : Store × Option (List Key) × List Key) (c : Key)
    (b : Store × Option (List Key) × List Key)
    (h : collapseStep g r (some a) c = some b) : CollapseFrame a.1 b.1 := by
  rw [collapseStep] at h
  split at h
  · cases hgc : g (collapseSel r c (a.1, a.2.1)).1 c with
    | none => rw [hgc] at h; exact absurd h (by simp)
    | some st2 =>
      rw [hgc] at h
      cases h
      exact collapseFrame_trans (collapseSel_frame r c (a.1, a.2.1)) (hg _ _ _ hgc)
  · cases h
    exact collapseSel_frame r c (a.1, a.2.1)

theorem foldl_collapseStep_none (g : Store → Key → Option Store) (r : Key)
    (cks : List Key) :
    cks.foldl (collapseStep g r) none = none := by
  induction cks with
  | nil => rfl
  | cons c rest ih => simpa [collapseStep] using ih

theorem foldl_collapseStep_frame (g : Store → Key → Option Store) (r : Key)
    (hg : ∀ s c s2, g s c = some s2 → CollapseFrame s s2) :
    ∀ (cks : List Key) (a b : Store × Option (List Key) × List Key),
    cks.foldl (collapseStep g r) (some a) = some b → CollapseFrame a.1 b.1 := by
  intro cks
  induction cks with
  | nil =>
    intro a b h
    cases h
    exact collapseFrame_refl _
  | cons c rest ih =>
    intro a b h
    rw [List.foldl_cons] at h
    cases hstep : collapseStep g r (some a) c with
    | none => rw [hstep, foldl_collapseStep_none] at h; exact absurd h (by simp)
    | some a1 =>
      rw [hstep] at h
      exact collapseFrame_trans (collapseStep_frame g r hg a c a1 hstep) (ih a1 b h)

/-- The straight-line tail of `_collapseNode` (record `previouslyExpanded`,
drop the expansion, release the subscription) seen from the post-loop
store. -/
theorem collapse_tail_frame (st0 : Store) (pe : List (Key × List (Key × List Key)))
    (r k : Key) (y : List Key) :
    CollapseFrame st0 (removeSubscription
      (setExpandedKeysF
        (setD st0 ({ st0.data with previouslyExpanded := pe } : StoreData) false) r y)
      r k) := by
  refine collapseFrame_trans (show CollapseFrame st0
      (setD st0 ({ st0.data with previouslyExpanded := pe } : StoreData) false) from ?_)
    (collapseFrame_trans (setExpandedKeysF_frame ..) (removeSubscription_frame ..))
  exact ⟨by simp, by simp, by simp, [], by simp⟩

/-- `_collapseNode` leaves the child-key map, the loading map and the root
list untouched, and only appends to the event trace. -/
theorem collapseNode_frame : ∀ (fuel : Nat) (st : Store) (r k : Key) (s' : Store),
    collapseNode fuel st r k = some s' → CollapseFrame st s' := by
  intro fuel
  induction fuel with
  | zero => intro st r k s' h; exact absurd h (by simp [collapseNode])
  | succ fuel ih =>
    intro st r k s' h
    rw [collapseNode] at h
    split at h
    · exact absurd h (by simp)
    · next a heq =>
      cases h
      refine collapseFrame_trans (show CollapseFrame st a.1 from ?_)
        (collapse_tail_frame a.1 _ r k _)
      split at heq
      · cases heq
        exact collapseFrame_refl _
      · exact foldl_collapseStep_frame _ r (fun s c s2 hc => ih s r c s2 hc) _ _ _ heq

theorem isExpanded_eq (st : Store) (r k : Key) :
    isExpanded st r k = ((aGet st.data.expandedKeysByRoot r).getD []).contains k := rfl

/-- The straight-line tail of `_collapseNode` leaves the node unexpanded. -/
theorem collapse_tail_unexpanded (st2 : Store) (r k : Key) :
    isExpanded (removeSubscription
      (setExpandedKeysF st2 r (sDel (getExpandedKeys st2 r) k)) r k) r k = false := by
  have hexp := (removeSubscription_sets
    (setExpandedKeysF st2 r (sDel (getExpandedKeys st2 r) k)) r k).1
  rw [isExpanded_eq, hexp]
  simp only [setExpandedKeysF_data, aGet_aSet_self, Option.getD_some]
  have hmem : k ∉ sDel (getExpandedKeys st2 r) k := fun hk => absurd rfl (mem_sDel.mp hk).2
  simpa using hmem

/-- After a completed `_collapseNode(root, key)` the key is no longer
expanded under that root. -/
theorem collapseNode_unexpands (fuel : Nat) (st : Store) (r k : Key) (s' : Store)
    (h : collapseNode fuel st r k = some s') : isExpanded s' r k = false := by
  cases fuel with
  | zero => exact absurd h (by simp [collapseNode])
  | succ fuel =>
    rw [collapseNode] at h
    split at h
    · exact absurd h (by simp)
    · next a heq =>
      cases h
      exact collapse_tail_unexpanded _ r k

/-- `_clearLoading` clears the loading entry and touches nothing else that
matters here. -/
theorem clearLoading_fields (st : Store) (k : Key) :
    (clearLoading st k).data.childKeyMap = st.data.childKeyMap ∧
    (clearLoading st k).data.rootKeys = st.data.rootKeys ∧
    (clearLoading st k).data.expandedKeysByRoot = st.data.expandedKeysByRoot ∧
    getLoading (clearLoading st k) k = none ∧
    (clearLoading st k).events = st.events := by
  have h1 : clearLoading st k = checkTrackedNode
      (setD st ({ st.data with isLoadingMap := aDel st.data.isLoadingMap k } : StoreData)
        false) := rfl
  rw [h1]
  unfold checkTrackedNode getLoading
  split
  · refine ⟨?_, ?_, ?_, ?_, ?_⟩ <;> simp
  · refine ⟨?_, ?_, ?_, ?_, ?_⟩ <;> simp

/-- C6: when the children fetch for `k` fails (rejection handler of
`_fetchChildKeys`), the failure is logged, `k` is collapsed in the root it
currently belongs to (so the user can retry by re-expanding), the loading
entry for `k` is cleared, and no `childKeyMap` entry is installed — the
child-key map and the root list are exactly as before. -/
theorem c6_fetch_failure_recovery (fuel : Nat) (st : Store) (k : Key) (s' : Store)
    (h : onFetchFailure fuel st k = some s') :
    s'.data.childKeyMap = st.data.childKeyMap ∧
    getLoading s' k = none ∧
    s'.data.rootKeys = st.data.rootKeys ∧
    (∃ t, s'.events = st.events ++ Ev.logFetchError k :: t) ∧
    (∀ r, getRootForKey st k = some r → isExpanded s' r k = false) := by
  rw [onFetchFailure] at h
  split at h
  · next r hroot =>
    cases hc : collapseNode fuel { st with events := st.events ++ [Ev.logFetchError k] } r k with
    | none => rw [hc] at h; exact absurd h (by simp)
    | some st1 =>
      rw [hc] at h
      cases h
      obtain ⟨f1, f2, f3, t, ht⟩ := collapseNode_frame fuel _ r k st1 hc
      obtain ⟨c1, c2, c3, c4, c5⟩ := clearLoading_fields st1 k
      refine ⟨c1.trans f1, c4, c2.trans f3, ⟨t, ?_⟩, ?_⟩
      · rw [c5, ht]; simp
      · intro r' hr'
        have hrr : r' = r := by
          rw [show getRootForKey st k =
            getRootForKey { st with events := st.events ++ [Ev.logFetchError k] } k from rfl,
            hroot] at hr'
          exact (Option.some_inj.mp hr').symm
        subst hrr
        have hcoll := collapseNode_unexpands fuel _ r' k st1 hc
        rw [isExpanded_eq] at hcoll ⊢
        rw [c3]
        exact hcoll
  · next hroot =>
    cases h
    obtain ⟨c1, c2, c3, c4, c5⟩ := clearLoading_fields
      { st with events := st.events ++ [Ev.logFetchError k] } k
    refine ⟨c1, c4, c2, ⟨[], by rw [c5]⟩, ?_⟩
    intro r hr
    rw [show getRootForKey st k =
      getRootForKey { st with events := st.events ++ [Ev.logFetchError k] } k from rfl,
      hroot] at hr
    exact absurd hr (by simp)

/-- A reachable store with a pending fetch for the root "a/". -/
def c6State : Store :=
  (getChildKeys (setRootKeys initialStore ["a/"]) "a/" "a/").2

/-- Witness for C6 at a concrete pending fetch. -/
theorem c6_fetch_failure_recovery_witness :
    ((onFetchFailure 3 c6State "a/").getD initialStore).data.childKeyMap =
      c6State.data.childKeyMap ∧
    getLoading ((onFetchFailure 3 c6State "a/").getD initialStore) "a/" = none ∧
    ((onFetchFailure 3 c6State "a/").getD initialStore).data.rootKeys =
      c6State.data.rootKeys ∧
    (∃ t, ((onFetchFailure 3 c6State "a/").getD initialStore).events =
      c6State.events ++ Ev.logFetchError "a/" :: t) ∧
    (∀ r, getRootForKey c6State "a/" = some r →
      isExpanded ((onFetchFailure 3 c6State "a/").getD initialStore) r "a/" = false) :=
  c6_fetch_failure_recovery 3 c6State "a/"
    ((onFetchFailure 3 c6State "a/").getD initialStore) (by decide)


/-! ## C7: export / import -/

theorem aGet_mapValues {α β : Type} (m : List (Key × α)) (f : α → β) (r : Key) :
    aGet (mapValues m f) r = (aGet m r).map f := by
  induction m with
  | nil => simp [mapValues, aGet]
  | cons e t ih =>
    by_cases he : e.1 = r <;> simp [mapValues, aGet, he] <;> simpa [mapValues] using ih

theorem mem_foldl_sAdd (l : List Key) :
    ∀ (acc : List Key) (x : Key), x ∈ l.foldl sAdd acc ↔ x ∈ acc ∨ x ∈ l := by
  induction l with
  | nil => simp
  | cons y t ih =>
    intro acc x
    rw [List.foldl_cons, ih]
    simp only [mem_sAdd, List.mem_cons]
    constructor
    · rintro ((hx | rfl) | hx)
      · exact Or.inl hx
      · exact Or.inr (Or.inl rfl)
      · exact Or.inr (Or.inr hx)
    · rintro (hx | rfl | hx)
      · exact Or.inl (Or.inl hx)
      · exact Or.inl (Or.inr rfl)
      · exact Or.inr hx

theorem mem_newSet (l : List Key) (x : Key) : x ∈ newSet l ↔ x ∈ l := by
  unfold newSet
  rw [mem_foldl_sAdd]
  simp

/-- The per-root sets that the subscription/fetch re-arming pass of
`loadData` never touches. -/
def LoadFrame (s s' : Store) : Prop :=
  s'.data.rootKeys = s.data.rootKeys ∧
  s'.data.expandedKeysByRoot = s.data.expandedKeysByRoot ∧
  s'.data.selectedKeysByRoot = s.data.selectedKeysByRoot

theorem loadFrame_refl (s : Store) : LoadFrame s s := ⟨rfl, rfl, rfl⟩

theorem loadFrame_trans {a b c : Store} :
    LoadFrame a b → LoadFrame b c → LoadFrame a c := by
  rintro ⟨h1, h2, h3⟩ ⟨g1, g2, g3⟩
  exact ⟨g1.trans h1, g2.trans h2, g3.trans h3⟩

theorem addSubscription_loadFrame (w : Key → Bool) (st : Store) (k : Key) :
    LoadFrame st (addSubscription w st k) := by
  unfold addSubscription
  refine ⟨?_, ?_, ?_⟩ <;> (simp only []; split_ifs <;> simp)

theorem fetchChildKeys_loadFrame (st : Store) (k : Key) :
    LoadFrame st (fetchChildKeys st k).2 := by
  unfold fetchChildKeys
  split
  · exact loadFrame_refl st
  · exact ⟨by simp [setLoadingF], by simp [setLoadingF], by simp [setLoadingF]⟩

theorem loadFold_loadFrame (w : Key → Bool) :
    ∀ (l : List (Key × Option (List Key))) (st : Store),
    LoadFrame st (l.foldl (fun st e =>
      (fetchChildKeys (addSubscription w st e.1) e.1).2) st) := by
  intro l
  induction l with
  | nil => exact fun st => loadFrame_refl st
  | cons e t ih =>
    intro st
    rw [List.foldl_cons]
    exact loadFrame_trans
      (loadFrame_trans (addSubscription_loadFrame w st e.1)
        (fetchChildKeys_loadFrame (addSubscription w st e.1) e.1))
      (ih _)

/-- C7: exporting and re-importing with the matching schema version
reproduces the root list exactly and per-root expansion and selection sets
with the same members; importing data carrying any other version is a
complete no-op on the store. -/
theorem c7_export_import_roundtrip (w : Key → Bool) (st : Store) (d : ExportData) :
    (loadData w st (exportData st)).data.rootKeys = st.data.rootKeys ∧
    (∀ r k, (k ∈ getExpandedKeys (loadData w st (exportData st)) r) ↔
      k ∈ getExpandedKeys st r) ∧
    (∀ r k, (k ∈ getSelectedKeysFor (loadData w st (exportData st)) r) ↔
      k ∈ getSelectedKeysFor st r) ∧
    (d.version ≠ VERSION → loadData w st d = st) := by
  have hload : ∀ e : ExportData, e.version = VERSION →
      LoadFrame { st with data := { getDefaults with
        childKeyMap := e.childKeyMap.foldr
          (fun e m => match e.2 with | some v => (e.1, v) :: m | none => m) []
        expandedKeysByRoot := mapValues e.expandedKeysByRoot newSet
        rootKeys := e.rootKeys
        selectedKeysByRoot := mapValues e.selectedKeysByRoot newSet } }
      (loadData w st e) := by
    intro e hv
    unfold loadData
    rw [if_neg (by simp [hv])]
    exact loadFold_loadFrame w _ _
  obtain ⟨h1, h2, h3⟩ := hload (exportData st) rfl
  refine ⟨?_, ?_, ?_, ?_⟩
  · rw [h1]
    rfl
  · intro r k
    unfold getExpandedKeys
    rw [h2]
    show k ∈ (aGet (mapValues (exportData st).expandedKeysByRoot newSet) r).getD [] ↔ _
    rw [show (exportData st).expandedKeysByRoot =
      mapValues st.data.expandedKeysByRoot id from rfl]
    rw [aGet_mapValues, aGet_mapValues]
    cases aGet st.data.expandedKeysByRoot r with
    | none => simp
    | some l => simp [mem_newSet]
  · intro r k
    unfold getSelectedKeysFor
    rw [h3]
    show k ∈ (aGet (mapValues (exportData st).selectedKeysByRoot newSet) r).getD [] ↔ _
    rw [show (exportData st).selectedKeysByRoot =
      mapValues st.data.selectedKeysByRoot id from rfl]
    rw [aGet_mapValues, aGet_mapValues]
    cases aGet st.data.selectedKeysByRoot r with
    | none => simp
    | some l => simp [mem_newSet]
  · intro hv
    unfold loadData
    rw [if_pos hv]

/-- A concrete store exercising the C7 round trip. -/
def c7State : Store :=
  { initialStore with data := { getDefaults with
      rootKeys := ["a/"]
      expandedKeysByRoot := [("a/", ["a/", "a/b/"])]
      selectedKeysByRoot := [("a/", ["a/x"])]
      childKeyMap := [("a/", ["a/b/", "a/x"])] } }

/-- Witness for C7: the round trip at `c7State` and the version-mismatch
no-op with a bumped version. -/
theorem c7_export_import_roundtrip_witness :
    (loadData (fun _ => true) c7State (exportData c7State)).data.rootKeys =
      c7State.data.rootKeys ∧
    (("a/b/" ∈ getExpandedKeys
        (loadData (fun _ => true) c7State (exportData c7State)) "a/") ↔
      "a/b/" ∈ getExpandedKeys c7State "a/") ∧
    loadData (fun _ => true) c7State { exportData c7State with version := 2 } =
      c7State :=
  ⟨(c7_export_import_roundtrip (fun _ => true) c7State (exportData c7State)).1,
   (c7_export_import_roundtrip (fun _ => true) c7State (exportData c7State)).2.1 "a/" "a/b/",
   (c7_export_import_roundtrip (fun _ => true) c7State
      { exportData c7State with version := 2 }).2.2.2 (by decide)⟩


/-! ## C4: `getVisibleNodes` -/

theorem mem_of_getLast?_eq {l : List Key} {a : Key} (h : l.getLast? = some a) :
    a ∈ l := by
  obtain ⟨hne, rfl⟩ := List.mem_getLast?_eq_getLast (Option.mem_def.mpr h)
  exact List.getLast_mem hne

/-- A reachable store: two overlapping roots "a/" and "a/b/", with "a/b/"
expanded under its own root but collapsed under "a/", and clean cached
children everywhere. -/
def c4s1 : Store := setRootKeys initialStore ["a/", "a/b/"]

def c4s2 : Store := (expandNode 2 c4s1 "a/" "a/").getD initialStore

def c4s3 : Store := (getChildKeys c4s2 "a/" "a/").2

def c4s4 : Store := (onFetchSuccess (fun _ => true) 3 c4s3 "a/" ["a/b/"]).getD initialStore

def c4s5 : Store := (expandNode 2 c4s4 "a/" "a/b/").getD initialStore

def c4s6 : Store := (expandNode 2 c4s5 "a/b/" "a/b/").getD initialStore

def c4s7 : Store := (getChildKeys c4s6 "a/b/" "a/b/").2

def c4s8 : Store := (onFetchSuccess (fun _ => true) 3 c4s7 "a/b/" ["a/b/c"]).getD initialStore

def c4State : Store := (collapseNode 3 c4s8 "a/" "a/b/").getD initialStore

/-- C4 counterexample: in the reachable state `c4State` the container
"a/b/" is NOT expanded under root "a/", its cached children are clean, and
`getVisibleNodes("a/")` nevertheless lists its child "a/b/c": the traversal
enumerates the children of every popped container and gates only the
directory children on the POPPED key's expansion, so leaf children of a
collapsed container still appear. -/
theorem c4_counterexample :
    Reachable c4State ∧
    getVisibleNodes 10 c4State "a/" =
      some [("a/", "a/"), ("a/b/", "a/b/"), ("a/b/", "a/b/c")] ∧
    "a/b/c" ∈ (aGet c4State.data.childKeyMap "a/b/").getD [] ∧
    isDirKey "a/b/" = true ∧
    isExpanded c4State "a/" "a/b/" = false := by
  refine ⟨?_, by decide, by decide, by decide, by decide⟩
  have h1 : Reachable c4s1 := Reachable.setRoots Reachable.init
  have h2 : Reachable c4s2 := @Reachable.expand c4s1 2 "a/" "a/" c4s2 h1 (by decide)
  have h3 : Reachable c4s3 := Reachable.query h2
  have h4 : Reachable c4s4 := @Reachable.fetchOk c4s3 (fun _ => true) 3 "a/" 0 ["a/b/"]
    c4s4 h3 (by decide) (by decide)
  have h5 : Reachable c4s5 := @Reachable.expand c4s4 2 "a/" "a/b/" c4s5 h4 (by decide)
  have h6 : Reachable c4s6 := @Reachable.expand c4s5 2 "a/b/" "a/b/" c4s6 h5 (by decide)
  have h7 : Reachable c4s7 := Reachable.query h6
  have h8 : Reachable c4s8 := @Reachable.fetchOk c4s7 (fun _ => true) 3 "a/b/" 1 ["a/b/c"]
    c4s8 h7 (by decide) (by decide)
  exact @Reachable.collapse c4s8 3 "a/" "a/b/" c4State h8 (by decide)

/-- A key admissible for exploration: some expanded, clean, cached parent
lists it among its children. -/
def VisParent (st : Store) (rootKey x : Key) : Prop :=
  ∃ p, isExpanded st rootKey p = true ∧ isDirty st p = false ∧
    x ∈ (aGet st.data.childKeyMap p).getD []

theorem visfold_mem (st : Store) (rootKey key : Key) (cks : List Key) :
    ∀ p0 : List Key × List (Key × Key),
    (∀ x ∈ (visPush st rootKey key cks p0).1,
      x ∈ p0.1 ∨ (x ∈ cks ∧ isExpanded st rootKey key = true)) ∧
    (∀ n ∈ (visPush st rootKey key cks p0).2,
      n ∈ p0.2 ∨ ∃ c, n = (key, c) ∧ isDirKey c = false) := by
  unfold visPush
  induction cks with
  | nil => exact fun p0 => ⟨fun x hx => Or.inl hx, fun n hn => Or.inl hn⟩
  | cons c rest ih =>
    intro p0
    rw [List.foldl_cons]
    by_cases hd : isDirKey c = true
    · by_cases he : isExpanded st rootKey key = true
      · rw [if_pos hd, if_pos he]
        obtain ⟨ihs, iha⟩ := ih (p0.1 ++ [c], p0.2)
        refine ⟨fun x hx => ?_, fun n hn => ?_⟩
        · rcases ihs x hx with hx' | ⟨hx', hexp⟩
          · rcases List.mem_append.mp hx' with hx'' | hx''
            · exact Or.inl hx''
            · have hxc : x = c := by simpa using hx''
              exact Or.inr ⟨by rw [hxc]; exact List.mem_cons_self c rest, he⟩
          · exact Or.inr ⟨List.mem_cons_of_mem c hx', hexp⟩
        · exact iha n hn
      · rw [if_pos hd, if_neg he]
        obtain ⟨ihs, iha⟩ := ih p0
        refine ⟨fun x hx => ?_, iha⟩
        rcases ihs x hx with hx' | ⟨hx', hexp⟩
        · exact Or.inl hx'
        · exact Or.inr ⟨List.mem_cons_of_mem c hx', hexp⟩
    · rw [if_neg hd]
      obtain ⟨ihs, iha⟩ := ih (p0.1, p0.2 ++ [(key, c)])
      refine ⟨fun x hx => ?_, fun n hn => ?_⟩
      · rcases ihs x hx with hx' | ⟨hx', hexp⟩
        · exact Or.inl hx'
        · exact Or.inr ⟨List.mem_cons_of_mem c hx', hexp⟩
      · rcases iha n hn with hn' | hn'
        · rcases List.mem_append.mp hn' with hn'' | hn''
          · exact Or.inl hn''
          · refine Or.inr ⟨c, ?_, by simpa using hd⟩
            simpa using hn''
        · exact Or.inr hn'

theorem visibleLoop_dir_nodes : ∀ (fuel : Nat) (st : Store) (rootKey : Key)
    (stack : List Key) (acc res : List (Key × Key)),
    visibleLoop fuel st rootKey stack acc = some res →
    (∀ x ∈ stack, x = rootKey ∨ VisParent st rootKey x) →
    (∀ n ∈ acc, isDirKey n.2 = true → n.2 = rootKey ∨ VisParent st rootKey n.2) →
    ∀ n ∈ res, isDirKey n.2 = true → n.2 = rootKey ∨ VisParent st rootKey n.2 := by
  intro fuel
  induction fuel with
  | zero =>
    intro st rootKey stack acc res h
    exact absurd h (by simp [visibleLoop])
  | succ fuel ih =>
    intro st rootKey stack acc res h hstack hacc
    rw [visibleLoop] at h
    split at h
    · cases h
      exact hacc
    · next key hlast =>
      have hkey := hstack key (mem_of_getLast?_eq hlast)
      have hstack1 : ∀ x ∈ stack.dropLast, x = rootKey ∨ VisParent st rootKey x :=
        fun x hx => hstack x (List.dropLast_subset stack hx)
      have hacc1 : ∀ n ∈ acc ++ [(key, key)], isDirKey n.2 = true →
          n.2 = rootKey ∨ VisParent st rootKey n.2 := by
        intro n hn hdk
        rcases List.mem_append.mp hn with hn' | hn'
        · exact hacc n hn' hdk
        · have hnk : n = (key, key) := by simpa using hn'
          subst hnk
          exact hkey
      split at h
      · exact ih st rootKey _ _ res h hstack1 hacc1
      · next cks hck =>
        by_cases hd : isDirty st key = true
        · rw [if_pos hd] at h
          exact ih st rootKey _ _ res h hstack1 hacc1
        · rw [if_neg hd] at h
          obtain ⟨hs, ha⟩ := visfold_mem st rootKey key cks (stack.dropLast, acc ++ [(key, key)])
          refine ih st rootKey _ _ res h ?_ ?_
          · intro x hx
            rcases hs x hx with hx' | ⟨hck', hexp⟩
            · exact hstack1 x hx'
            · refine Or.inr ⟨key, hexp, by simpa using hd, ?_⟩
              rw [hck]
              simpa using hck'
          · intro n hn hdk
            rcases ha n hn with hn' | ⟨c, rfl, hc⟩
            · exact hacc1 n hn' hdk
            · rw [hc] at hdk
              exact absurd hdk (by simp)

/-- C4 (amended): `getVisibleNodes(root)` returns `[]` for an unregistered
root and only the root node when the root is collapsed; in the traversal it
enqueues a container key for exploration only when the container's PARENT is
expanded under the root (stopping, without fetching, at keys whose children
are unknown or dirty) — so every container key in the result other than the
root is a cached, clean child of a key expanded under the root.  Leaf
children of a popped container with known clean children are, however,
included even when that container itself is not expanded. -/
theorem c4_visible_traversal (fuel : Nat) (st : Store) (rootKey : Key)
    (res : List (Key × Key)) (h : getVisibleNodes fuel st rootKey = some res) :
    (isRootKey st rootKey = false → res = []) ∧
    (isRootKey st rootKey = true → isExpanded st rootKey rootKey = false →
      res = [(rootKey, rootKey)]) ∧
    (∀ n ∈ res, isDirKey n.2 = true → n.2 = rootKey ∨ VisParent st rootKey n.2) := by
  unfold getVisibleNodes at h
  by_cases hroot : isRootKey st rootKey = true
  · rw [if_neg (by simp [hroot])] at h
    by_cases hexp : isExpanded st rootKey rootKey = true
    · rw [if_neg (by simp [hexp])] at h
      refine ⟨fun hc => absurd hroot (by simp [hc]), fun _ hc => absurd hexp (by simp [hc]), ?_⟩
      refine visibleLoop_dir_nodes fuel st rootKey [rootKey] [] res h ?_ (by simp)
      intro x hx
      exact Or.inl (by simpa using hx)
    · rw [if_pos (by simpa using hexp)] at h
      cases h
      refine ⟨fun hc => absurd hroot (by simp [hc]), fun _ _ => rfl, ?_⟩
      intro n hn hdk
      have : n = (rootKey, rootKey) := by simpa using hn
      subst this
      exact Or.inl rfl
  · rw [if_pos (by simpa using hroot)] at h
    cases h
    refine ⟨fun _ => rfl, fun hc => absurd hc (by simpa using hroot), ?_⟩
    intro n hn
    exact absurd hn (by simp)

/-- Witness for the amended C4 theorem at the counterexample state. -/
theorem c4_visible_traversal_witness :
    (isRootKey c4State "a/" = false →
      (getVisibleNodes 10 c4State "a/").getD [] = []) ∧
    (isRootKey c4State "a/" = true → isExpanded c4State "a/" "a/" = false →
      (getVisibleNodes 10 c4State "a/").getD [] = [("a/", "a/")]) ∧
    (∀ n ∈ (getVisibleNodes 10 c4State "a/").getD [], isDirKey n.2 = true →
      n.2 = "a/" ∨ VisParent c4State "a/" n.2) :=
  c4_visible_traversal 10 c4State "a/" ((getVisibleNodes 10 c4State "a/").getD [])
    (by decide)


/-! ## C1 and C10: the purge cascade -/

/-- A key wholly purged from the store: no cached children, no watch
subscription, not expanded and not selected under any root. -/
def Removed (j : Key) (s : Store) : Prop :=
  aGet s.data.childKeyMap j = none ∧
  aGet s.data.subscriptionMap j = none ∧
  (∀ r, j ∉ getExpandedKeys s r) ∧
  (∀ r, j ∉ getSelectedKeysFor s r)

/-- The purge cascade only deletes: child-list entries keep their value or
disappear, subscriptions keep their handle or disappear, expansion and
selection sets shrink. -/
def SubMaps (s₀ s : Store) : Prop :=
  (∀ j, aGet s.data.childKeyMap j = aGet s₀.data.childKeyMap j ∨
    aGet s.data.childKeyMap j = none) ∧
  (∀ j, aGet s.data.subscriptionMap j = aGet s₀.data.subscriptionMap j ∨
    aGet s.data.subscriptionMap j = none) ∧
  (∀ r j, j ∈ getExpandedKeys s r → j ∈ getExpandedKeys s₀ r) ∧
  (∀ r j, j ∈ getSelectedKeysFor s r → j ∈ getSelectedKeysFor s₀ r)

/-- JS objects cannot carry duplicate properties: the per-root maps have
duplicate-free key lists. -/
def WFmaps (s : Store) : Prop :=
  (s.data.expandedKeysByRoot.map Prod.fst).Nodup ∧
  (s.data.selectedKeysByRoot.map Prod.fst).Nodup

/-- The keys `_purgeDirectory(k)` visits: `k` itself and, recursively, the
directory children found in the (call-time) child-key map. -/
inductive PurgeReach (s : Store) (k : Key) : Key → Prop where
  | refl : PurgeReach s k k
  | step {j c : Key} (hj : PurgeReach s k j) (cs : List Key)
      (hcs : aGet s.data.childKeyMap j = some cs) (hc : c ∈ cs)
      (hd : isDirKey c = true) : PurgeReach s k c

/-- The invariant carried by the purge cascade relative to the state `s₀` it
started from: only deletions happened, the object maps stay well formed, and
whenever a child-list entry of `s₀` has been deleted, everything the purge
of that key reaches in `s₀` is already removed. -/
def GoodP (s₀ s : Store) : Prop :=
  SubMaps s₀ s ∧ WFmaps s ∧
  ∀ m cs, aGet s₀.data.childKeyMap m = some cs →
    aGet s.data.childKeyMap m = none →
    ∀ j, PurgeReach s₀ m j → Removed j s

theorem subMaps_refl (s : Store) : SubMaps s s :=
  ⟨fun j => Or.inl rfl, fun j => Or.inl rfl, fun _ _ h => h, fun _ _ h => h⟩

theorem subMaps_trans {a b c : Store} (h1 : SubMaps a b) (h2 : SubMaps b c) :
    SubMaps a c := by
  obtain ⟨c1, s1, e1, l1⟩ := h1
  obtain ⟨c2, s2, e2, l2⟩ := h2
  refine ⟨fun j => ?_, fun j => ?_, fun r j h => e1 r j (e2 r j h),
    fun r j h => l1 r j (l2 r j h)⟩
  · rcases c2 j with h | h
    · rw [h]; exact c1 j
    · exact Or.inr h
  · rcases s2 j with h | h
    · rw [h]; exact s1 j
    · exact Or.inr h

theorem removed_mono {j : Key} {b c : Store} (hr : Removed j b) (hs : SubMaps b c) :
    Removed j c := by
  obtain ⟨r1, r2, r3, r4⟩ := hr
  obtain ⟨c1, s1, e1, l1⟩ := hs
  refine ⟨?_, ?_, fun r hj => r3 r (e1 r j hj), fun r hj => r4 r (l1 r j hj)⟩
  · rcases c1 j with h | h
    · rw [h, r1]
    · exact h
  · rcases s1 j with h | h
    · rw [h, r2]
    · exact h

theorem goodP_refl (s : Store) (hwf : WFmaps s) : GoodP s s :=
  ⟨subMaps_refl s, hwf, fun m cs h1 h2 => absurd (h1 ▸ h2) (by simp)⟩

/-- Extending the reach one edge back from the start. -/
theorem purgeReach_split {s : Store} {k j : Key} (h : PurgeReach s k j) :
    j = k ∨ ∃ cs c, aGet s.data.childKeyMap k = some cs ∧ c ∈ cs ∧
      isDirKey c = true ∧ PurgeReach s c j := by
  induction h with
  | refl => exact Or.inl rfl
  | step hj cs hcs hc hd ih =>
    rcases ih with rfl | ⟨cs0, c0, hcs0, hc0, hd0, hr0⟩
    · exact Or.inr ⟨cs, _, hcs, hc, hd, PurgeReach.refl⟩
    · exact Or.inr ⟨cs0, c0, hcs0, hc0, hd0, PurgeReach.step hr0 cs hcs hc hd⟩

theorem purgeReach_none {s : Store} {k j : Key} (h : PurgeReach s k j)
    (hck : aGet s.data.childKeyMap k = none) : j = k := by
  induction h with
  | refl => rfl
  | step hj cs hcs hc hd ih =>
    subst ih
    rw [hcs] at hck
    exact absurd hck (by simp)

/-- With keys as genuine paths (every cached child strictly longer than its
parent), reach only moves to strictly longer keys. -/
def WFlen (s : Store) : Prop :=
  ∀ e ∈ s.data.childKeyMap, ∀ c ∈ e.2, e.1.length < c.length

theorem aGet_some_mem {α : Type} {m : List (Key × α)} {k : Key} {v : α}
    (h : aGet m k = some v) : (k, v) ∈ m := by
  induction m with
  | nil => simp [aGet] at h
  | cons e t ih =>
    obtain ⟨k', v'⟩ := e
    by_cases he : k' = k
    · subst he
      simp only [aGet, if_pos rfl] at h
      cases h
      exact List.mem_cons_self _ _
    · simp only [aGet, he, ite_false] at h
      exact List.mem_cons_of_mem _ (ih h)

theorem purgeReach_len {s : Store} (hlen : WFlen s) {k j : Key}
    (h : PurgeReach s k j) : j = k ∨ k.length < j.length := by
  induction h with
  | refl => exact Or.inl rfl
  | step hj cs hcs hc hd ih =>
    have hlt := hlen _ (aGet_some_mem hcs) _ hc
    rcases ih with rfl | hlt2
    · exact Or.inr hlt
    · exact Or.inr (Nat.lt_trans hlt2 hlt)

/-- If the cascade deleted a child-list entry, everything that entry reached
in the original state is already removed; otherwise the original reach is
still available in the current state. -/
theorem purge_bridge {s₀ s : Store} (hg : GoodP s₀ s) {m j : Key}
    (h : PurgeReach s₀ m j) : Removed j s ∨ PurgeReach s m j := by
  induction h with
  | refl => exact Or.inr PurgeReach.refl
  | step hj cs hcs hc hd ih =>
    rcases ih with hrem | hreach
    · exact Or.inl (hg.2.2 _ cs hcs hrem.1 _ (PurgeReach.step PurgeReach.refl cs hcs hc hd))
    · rcases hg.1.1 _ with heq | hnone
      · rw [hcs] at heq
        exact Or.inr (PurgeReach.step hreach cs heq hc hd)
      · exact Or.inl (hg.2.2 _ cs hcs hnone _ (PurgeReach.step PurgeReach.refl cs hcs hc hd))

theorem aGet_none_not_mem_keys {α : Type} {m : List (Key × α)} {k : Key}
    (h : aGet m k = none) : k ∉ m.map Prod.fst := by
  induction m with
  | nil => simp
  | cons e t ih =>
    by_cases he : e.1 = k
    · simp [aGet, he] at h
    · simp only [aGet, he, if_neg, ite_false] at h
      simp only [List.map_cons, List.mem_cons]
      rintro (hk | hk)
      · exact he hk.symm
      · exact ih h hk

theorem aSet_keys_nodup {α : Type} [DecidableEq α] {m : List (Key × α)}
    (k : Key) (v : α) (h : (m.map Prod.fst).Nodup) :
    ((aSet m k v).map Prod.fst).Nodup := by
  cases hm : aGet m k with
  | none =>
    rw [aSet_of_aGet_none _ _ _ hm]
    simp only [List.map_append, List.map_cons, List.map_nil]
    rw [List.nodup_append]
    refine ⟨h, by simp, ?_⟩
    intro a ham hak
    rw [List.mem_singleton] at hak
    subst hak
    exact aGet_none_not_mem_keys hm ham
  | some v' =>
    have hset : aSet m k v =
        if v' = v then m else m.map (fun e => if e.1 = k then (k, v) else e) := by
      unfold aSet
      rw [hm]
    rw [hset]
    by_cases hv : v' = v
    · simpa [hv] using h
    · rw [if_neg hv]
      have hmap : (m.map (fun e => if e.1 = k then (k, v) else e)).map Prod.fst =
          m.map Prod.fst := by
        rw [List.map_map]
        refine List.map_congr_left fun e he => ?_
        by_cases hek : e.1 = k <;> simp [hek]
      rw [hmap]
      exact h

theorem entriesRemove_keys_sublist {α : Type} (m : List (Key × α)) (k : Key) :
    ((entriesRemove m k).map Prod.fst).Sublist (m.map Prod.fst) := by
  induction m with
  | nil => simp [entriesRemove]
  | cons e t ih =>
    by_cases he : e.1 = k
    · simp only [entriesRemove, he, if_pos, List.map_cons]
      exact ih.trans (List.sublist_cons_self _ _)
    · simp only [entriesRemove, he, ite_false, List.map_cons]
      exact ih.cons₂ e.1

theorem aDel_keys_nodup {α : Type} {m : List (Key × α)} (k : Key)
    (h : (m.map Prod.fst).Nodup) : ((aDel m k).map Prod.fst).Nodup := by
  unfold aDel
  split
  · exact (entriesRemove_keys_sublist m k).nodup h
  · exact h

theorem aGet_of_mem_nodup {α : Type} {m : List (Key × α)} {e : Key × α}
    (hnd : (m.map Prod.fst).Nodup) (he : e ∈ m) : aGet m e.1 = some e.2 := by
  induction m with
  | nil => simp at he
  | cons e0 t ih =>
    rcases List.mem_cons.mp he with rfl | he'
    · simp [aGet]
    · have hne : e0.1 ≠ e.1 := by
        intro hk
        have : e.1 ∈ t.map Prod.fst := List.mem_map.mpr ⟨e, he', rfl⟩
        rw [← hk] at this
        exact (List.nodup_cons.mp (by simpa using hnd)).1 this
      simp only [aGet, hne, ite_false]
      exact ih (List.nodup_cons.mp (by simpa using hnd)).2 he'


theorem contains_of_mem {l : List Key} {a : Key} (h : a ∈ l) :
    l.contains a = true := by
  simpa using h

theorem removeAllSubs_fields (st : Store) (k : Key) :
    (removeAllSubscriptions st k).data.childKeyMap = st.data.childKeyMap ∧
    (removeAllSubscriptions st k).data.expandedKeysByRoot = st.data.expandedKeysByRoot ∧
    (removeAllSubscriptions st k).data.selectedKeysByRoot = st.data.selectedKeysByRoot ∧
    aGet (removeAllSubscriptions st k).data.subscriptionMap k = none ∧
    (∀ j, aGet (removeAllSubscriptions st k).data.subscriptionMap j =
        aGet st.data.subscriptionMap j ∨
      aGet (removeAllSubscriptions st k).data.subscriptionMap j = none) := by
  unfold removeAllSubscriptions
  split
  · next hsub => exact ⟨rfl, rfl, rfl, hsub, fun j => Or.inl rfl⟩
  · next hh hsub =>
    refine ⟨by simp, by simp, by simp, by simp, fun j => ?_⟩
    by_cases hj : j = k
    · subst hj
      right
      simp
    · left
      simp [aGet_aDel_ne _ hj]

theorem stripExpFold_frame (k : Key) :
    ∀ (entries : List (Key × List Key)) (b : Store),
    ((entries.foldl (fun st (e : Key × List Key) =>
        if e.2.contains k then setExpandedKeysF st e.1 (sDel e.2 k) else st)
        b)).data.childKeyMap = b.data.childKeyMap ∧
    ((entries.foldl (fun st (e : Key × List Key) =>
        if e.2.contains k then setExpandedKeysF st e.1 (sDel e.2 k) else st)
        b)).data.subscriptionMap = b.data.subscriptionMap ∧
    ((entries.foldl (fun st (e : Key × List Key) =>
        if e.2.contains k then setExpandedKeysF st e.1 (sDel e.2 k) else st)
        b)).data.selectedKeysByRoot = b.data.selectedKeysByRoot ∧
    (((b.data.expandedKeysByRoot.map Prod.fst).Nodup →
      (((entries.foldl (fun st (e : Key × List Key) =>
        if e.2.contains k then setExpandedKeysF st e.1 (sDel e.2 k) else st)
        b)).data.expandedKeysByRoot.map Prod.fst).Nodup)) := by
  intro entries
  induction entries with
  | nil => exact fun b => ⟨rfl, rfl, rfl, fun h => h⟩
  | cons e rest ih =>
    intro b
    rw [List.foldl_cons]
    by_cases hc : e.2.contains k = true
    · rw [if_pos hc]
      obtain ⟨i1, i2, i3, i4⟩ := ih (setExpandedKeysF b e.1 (sDel e.2 k))
      refine ⟨by rw [i1]; simp, by rw [i2]; simp, by rw [i3]; simp, fun hnd => ?_⟩
      refine i4 ?_
      simp only [setExpandedKeysF_data]
      exact aSet_keys_nodup e.1 (sDel e.2 k) hnd
    · rw [if_neg hc]
      exact ih b

theorem stripExpFold_mem (k : Key) :
    ∀ (entries : List (Key × List Key)) (b : Store),
    (entries.map Prod.fst).Nodup →
    (∀ e ∈ entries, aGet b.data.expandedKeysByRoot e.1 = some e.2) →
    ((∀ r j, j ∈ getExpandedKeys ((entries.foldl (fun st (e : Key × List Key) =>
        if e.2.contains k then setExpandedKeysF st e.1 (sDel e.2 k) else st) b)) r →
      j ∈ getExpandedKeys b r) ∧
    ((∀ r v, aGet b.data.expandedKeysByRoot r = some v → k ∈ v →
        ∃ e ∈ entries, e.1 = r ∧ e.2.contains k = true) →
      ∀ r, k ∉ getExpandedKeys ((entries.foldl (fun st (e : Key × List Key) =>
        if e.2.contains k then setExpandedKeysF st e.1 (sDel e.2 k) else st) b)) r)) := by
  intro entries
  induction entries with
  | nil =>
    intro b _ _
    refine ⟨fun r j h => h, fun hcon r hk => ?_⟩
    unfold getExpandedKeys at hk
    rw [List.foldl_nil] at hk
    cases hv : aGet b.data.expandedKeysByRoot r with
    | none => rw [hv] at hk; simp at hk
    | some v =>
      rw [hv] at hk
      obtain ⟨e, he, _⟩ := hcon r v hv (by simpa using hk)
      simp at he
  | cons e rest ih =>
    intro b hnd hinv
    have hnd' : (rest.map Prod.fst).Nodup := (List.nodup_cons.mp (by simpa using hnd)).2
    have hkey : e.1 ∉ rest.map Prod.fst := (List.nodup_cons.mp (by simpa using hnd)).1
    have hhead : aGet b.data.expandedKeysByRoot e.1 = some e.2 :=
      hinv e (List.mem_cons_self e rest)
    rw [List.foldl_cons]
    by_cases hc : e.2.contains k = true
    · rw [if_pos hc]
      have hb' : ∀ e' ∈ rest, aGet (setExpandedKeysF b e.1
          (sDel e.2 k)).data.expandedKeysByRoot e'.1 = some e'.2 := by
        intro e' he'
        have hne : e'.1 ≠ e.1 := by
          intro hk'
          exact hkey (hk' ▸ List.mem_map.mpr ⟨e', he', rfl⟩)
        simp only [setExpandedKeysF_data]
        rw [aGet_aSet_ne _ _ hne]
        exact hinv e' (List.mem_cons_of_mem e he')
      obtain ⟨ih1, ih2⟩ := ih (setExpandedKeysF b e.1 (sDel e.2 k)) hnd' hb'
      have hstep : ∀ r j, j ∈ getExpandedKeys (setExpandedKeysF b e.1 (sDel e.2 k)) r →
          j ∈ getExpandedKeys b r := by
        intro r j hj
        unfold getExpandedKeys at hj ⊢
        by_cases hr : r = e.1
        · subst hr
          simp only [setExpandedKeysF_data, aGet_aSet_self, Option.getD_some] at hj
          rw [hhead]
          exact (mem_sDel.mp hj).1
        · simp only [setExpandedKeysF_data] at hj
          rw [aGet_aSet_ne _ _ (fun hk' => hr hk')] at hj
          exact hj
      refine ⟨fun r j hj => hstep r j (ih1 r j hj), fun hcon => ?_⟩
      refine ih2 ?_
      intro r v hv hkv
      by_cases hr : r = e.1
      · subst hr
        simp only [setExpandedKeysF_data, aGet_aSet_self] at hv
        cases hv
        exact absurd rfl (mem_sDel.mp hkv).2
      · simp only [setExpandedKeysF_data] at hv
        rw [aGet_aSet_ne _ _ (fun hk' => hr hk')] at hv
        obtain ⟨e', he', her, hec⟩ := hcon r v hv hkv
        rcases List.mem_cons.mp he' with rfl | he''
        · exact absurd her.symm hr
        · exact ⟨e', he'', her, hec⟩
    · rw [if_neg hc]
      obtain ⟨ih1, ih2⟩ := ih b hnd' (fun e' he' => hinv e' (List.mem_cons_of_mem e he'))
      refine ⟨ih1, fun hcon => ?_⟩
      refine ih2 ?_
      intro r v hv hkv
      obtain ⟨e', he', her, hec⟩ := hcon r v hv hkv
      rcases List.mem_cons.mp he' with rfl | he''
      · rw [her] at hhead
        rw [hv] at hhead
        cases hhead
        exact absurd hec hc
      · exact ⟨e', he'', her, hec⟩

theorem stripExpanded_spec (st : Store) (k : Key)
    (hnd : (st.data.expandedKeysByRoot.map Prod.fst).Nodup) :
    (stripExpanded st k).data.childKeyMap = st.data.childKeyMap ∧
    (stripExpanded st k).data.subscriptionMap = st.data.subscriptionMap ∧
    (stripExpanded st k).data.selectedKeysByRoot = st.data.selectedKeysByRoot ∧
    ((stripExpanded st k).data.expandedKeysByRoot.map Prod.fst).Nodup ∧
    (∀ r j, j ∈ getExpandedKeys (stripExpanded st k) r → j ∈ getExpandedKeys st r) ∧
    (∀ r, k ∉ getExpandedKeys (stripExpanded st k) r) := by
  obtain ⟨f1, f2, f3, f4⟩ := stripExpFold_frame k st.data.expandedKeysByRoot st
  have hinv : ∀ e ∈ st.data.expandedKeysByRoot,
      aGet st.data.expandedKeysByRoot e.1 = some e.2 :=
    fun e he => aGet_of_mem_nodup hnd he
  obtain ⟨m1, m2⟩ := stripExpFold_mem k st.data.expandedKeysByRoot st hnd hinv
  refine ⟨f1, f2, f3, f4 hnd, m1, ?_⟩
  refine m2 ?_
  intro r v hv hkv
  exact ⟨(r, v), aGet_some_mem hv, rfl, contains_of_mem hkv⟩


theorem stripSelFold_frame (k : Key) :
    ∀ (entries : List (Key × List Key)) (b : Store),
    ((entries.foldl (fun st (e : Key × List Key) =>
        if e.2.contains k then setSelectedKeysF st e.1 (sDel e.2 k) else st)
        b)).data.childKeyMap = b.data.childKeyMap ∧
    ((entries.foldl (fun st (e : Key × List Key) =>
        if e.2.contains k then setSelectedKeysF st e.1 (sDel e.2 k) else st)
        b)).data.subscriptionMap = b.data.subscriptionMap ∧
    ((entries.foldl (fun st (e : Key × List Key) =>
        if e.2.contains k then setSelectedKeysF st e.1 (sDel e.2 k) else st)
        b)).data.expandedKeysByRoot = b.data.expandedKeysByRoot ∧
    (((b.data.selectedKeysByRoot.map Prod.fst).Nodup →
      (((entries.foldl (fun st (e : Key × List Key) =>
        if e.2.contains k then setSelectedKeysF st e.1 (sDel e.2 k) else st)
        b)).data.selectedKeysByRoot.map Prod.fst).Nodup)) := by
  intro entries
  induction entries with
  | nil => exact fun b => ⟨rfl, rfl, rfl, fun h => h⟩
  | cons e rest ih =>
    intro b
    rw [List.foldl_cons]
    by_cases hc : e.2.contains k = true
    · rw [if_pos hc]
      obtain ⟨i1, i2, i3, i4⟩ := ih (setSelectedKeysF b e.1 (sDel e.2 k))
      refine ⟨by rw [i1]; simp, by rw [i2]; simp, by rw [i3]; simp, fun hnd => ?_⟩
      refine i4 ?_
      simp only [setSelectedKeysF_data]
      exact aSet_keys_nodup e.1 (sDel e.2 k) hnd
    · rw [if_neg hc]
      exact ih b

theorem stripSelFold_mem (k : Key) :
    ∀ (entries : List (Key × List Key)) (b : Store),
    (entries.map Prod.fst).Nodup →
    (∀ e ∈ entries, aGet b.data.selectedKeysByRoot e.1 = some e.2) →
    ((∀ r j, j ∈ getSelectedKeysFor ((entries.foldl (fun st (e : Key × List Key) =>
        if e.2.contains k then setSelectedKeysF st e.1 (sDel e.2 k) else st) b)) r →
      j ∈ getSelectedKeysFor b r) ∧
    ((∀ r v, aGet b.data.selectedKeysByRoot r = some v → k ∈ v →
        ∃ e ∈ entries, e.1 = r ∧ e.2.contains k = true) →
      ∀ r, k ∉ getSelectedKeysFor ((entries.foldl (fun st (e : Key × List Key) =>
        if e.2.contains k then setSelectedKeysF st e.1 (sDel e.2 k) else st) b)) r)) := by
  intro entries
  induction entries with
  | nil =>
    intro b _ _
    refine ⟨fun r j h => h, fun hcon r hk => ?_⟩
    unfold getSelectedKeysFor at hk
    rw [List.foldl_nil] at hk
    cases hv : aGet b.data.selectedKeysByRoot r with
    | none => rw [hv] at hk; simp at hk
    | some v =>
      rw [hv] at hk
      obtain ⟨e, he, _⟩ := hcon r v hv (by simpa using hk)
      simp at he
  | cons e rest ih =>
    intro b hnd hinv
    have hnd' : (rest.map Prod.fst).Nodup := (List.nodup_cons.mp (by simpa using hnd)).2
    have hkey : e.1 ∉ rest.map Prod.fst := (List.nodup_cons.mp (by simpa using hnd)).1
    have hhead : aGet b.data.selectedKeysByRoot e.1 = some e.2 :=
      hinv e (List.mem_cons_self e rest)
    rw [List.foldl_cons]
    by_cases hc : e.2.contains k = true
    · rw [if_pos hc]
      have hb' : ∀ e' ∈ rest, aGet (setSelectedKeysF b e.1
          (sDel e.2 k)).data.selectedKeysByRoot e'.1 = some e'.2 := by
        intro e' he'
        have hne : e'.1 ≠ e.1 := by
          intro hk'
          exact hkey (hk' ▸ List.mem_map.mpr ⟨e', he', rfl⟩)
        simp only [setSelectedKeysF_data]
        rw [aGet_aSet_ne _ _ hne]
        exact hinv e' (List.mem_cons_of_mem e he')
      obtain ⟨ih1, ih2⟩ := ih (setSelectedKeysF b e.1 (sDel e.2 k)) hnd' hb'
      have hstep : ∀ r j, j ∈ getSelectedKeysFor (setSelectedKeysF b e.1 (sDel e.2 k)) r →
          j ∈ getSelectedKeysFor b r := by
        intro r j hj
        unfold getSelectedKeysFor at hj ⊢
        by_cases hr : r = e.1
        · subst hr
          simp only [setSelectedKeysF_data, aGet_aSet_self, Option.getD_some] at hj
          rw [hhead]
          exact (mem_sDel.mp hj).1
        · simp only [setSelectedKeysF_data] at hj
          rw [aGet_aSet_ne _ _ (fun hk' => hr hk')] at hj
          exact hj
      refine ⟨fun r j hj => hstep r j (ih1 r j hj), fun hcon => ?_⟩
      refine ih2 ?_
      intro r v hv hkv
      by_cases hr : r = e.1
      · subst hr
        simp only [setSelectedKeysF_data, aGet_aSet_self] at hv
        cases hv
        exact absurd rfl (mem_sDel.mp hkv).2
      · simp only [setSelectedKeysF_data] at hv
        rw [aGet_aSet_ne _ _ (fun hk' => hr hk')] at hv
        obtain ⟨e', he', her, hec⟩ := hcon r v hv hkv
        rcases List.mem_cons.mp he' with rfl | he''
        · exact absurd her.symm hr
        · exact ⟨e', he'', her, hec⟩
    · rw [if_neg hc]
      obtain ⟨ih1, ih2⟩ := ih b hnd' (fun e' he' => hinv e' (List.mem_cons_of_mem e he'))
      refine ⟨ih1, fun hcon => ?_⟩
      refine ih2 ?_
      intro r v hv hkv
      obtain ⟨e', he', her, hec⟩ := hcon r v hv hkv
      rcases List.mem_cons.mp he' with rfl | he''
      · rw [her] at hhead
        rw [hv] at hhead
        cases hhead
        exact absurd hec hc
      · exact ⟨e', he'', her, hec⟩

theorem stripSelected_spec (st : Store) (k : Key)
    (hnd : (st.data.selectedKeysByRoot.map Prod.fst).Nodup) :
    (stripSelected st k).data.childKeyMap = st.data.childKeyMap ∧
    (stripSelected st k).data.subscriptionMap = st.data.subscriptionMap ∧
    (stripSelected st k).data.expandedKeysByRoot = st.data.expandedKeysByRoot ∧
    ((stripSelected st k).data.selectedKeysByRoot.map Prod.fst).Nodup ∧
    (∀ r j, j ∈ getSelectedKeysFor (stripSelected st k) r → j ∈ getSelectedKeysFor st r) ∧
    (∀ r, k ∉ getSelectedKeysFor (stripSelected st k) r) := by
  obtain ⟨f1, f2, f3, f4⟩ := stripSelFold_frame k st.data.selectedKeysByRoot st
  have hinv : ∀ e ∈ st.data.selectedKeysByRoot,
      aGet st.data.selectedKeysByRoot e.1 = some e.2 :=
    fun e he => aGet_of_mem_nodup hnd he
  obtain ⟨m1, m2⟩ := stripSelFold_mem k st.data.selectedKeysByRoot st hnd hinv
  refine ⟨f1, f2, f3, f4 hnd, m1, ?_⟩
  refine m2 ?_
  intro r v hv hkv
  exact ⟨(r, v), aGet_some_mem hv, rfl, contains_of_mem hkv⟩

/-- Full specification of the cleanup tail of `_purgeDirectory`. -/
theorem purgeTail_spec (b : Store) (k : Key) (hwf : WFmaps b) :
    (purgeTail b k).data.childKeyMap = b.data.childKeyMap ∧
    SubMaps b (purgeTail b k) ∧ WFmaps (purgeTail b k) ∧
    aGet (purgeTail b k).data.subscriptionMap k = none ∧
    (∀ r, k ∉ getExpandedKeys (purgeTail b k) r) ∧
    (∀ r, k ∉ getSelectedKeysFor (purgeTail b k) r) := by
  obtain ⟨a1, a2, a3, a4, a5⟩ := removeAllSubs_fields b k
  have hndE : ((removeAllSubscriptions b k).data.expandedKeysByRoot.map Prod.fst).Nodup := by
    rw [a2]; exact hwf.1
  obtain ⟨e1, e2, e3, e4, e5, e6⟩ := stripExpanded_spec (removeAllSubscriptions b k) k hndE
  have hndS : ((stripExpanded (removeAllSubscriptions b k) k).data.selectedKeysByRoot.map
      Prod.fst).Nodup := by
    rw [e3, a3]; exact hwf.2
  obtain ⟨s1, s2, s3, s4, s5, s6⟩ :=
    stripSelected_spec (stripExpanded (removeAllSubscriptions b k) k) k hndS
  have hexpEq : (purgeTail b k).data.expandedKeysByRoot =
      (stripExpanded (removeAllSubscriptions b k) k).data.expandedKeysByRoot := s3
  refine ⟨?_, ?_, ?_, ?_, ?_, s6⟩
  · rw [show (purgeTail b k).data.childKeyMap =
      (stripExpanded (removeAllSubscriptions b k) k).data.childKeyMap from s1, e1, a1]
  · refine ⟨fun j => ?_, fun j => ?_, fun r j hj => ?_, fun r j hj => ?_⟩
    · rw [show (purgeTail b k).data.childKeyMap =
        (stripExpanded (removeAllSubscriptions b k) k).data.childKeyMap from s1, e1, a1]
      exact Or.inl rfl
    · rw [show (purgeTail b k).data.subscriptionMap =
        (stripExpanded (removeAllSubscriptions b k) k).data.subscriptionMap from s2, e2]
      exact a5 j
    · have hj2 : j ∈ getExpandedKeys (stripExpanded (removeAllSubscriptions b k) k) r := by
        unfold getExpandedKeys at hj ⊢
        rw [hexpEq] at hj
        exact hj
      have hj3 := e5 r j hj2
      unfold getExpandedKeys at hj3 ⊢
      rw [a2] at hj3
      exact hj3
    · have hj2 := s5 r j hj
      unfold getSelectedKeysFor at hj2 ⊢
      rw [e3, a3] at hj2
      exact hj2
  · constructor
    · rw [hexpEq]
      exact e4
    · exact s4
  · rw [show (purgeTail b k).data.subscriptionMap =
      (stripExpanded (removeAllSubscriptions b k) k).data.subscriptionMap from s2, e2]
    exact a4
  · intro r
    intro hk
    have : k ∈ getExpandedKeys (stripExpanded (removeAllSubscriptions b k) k) r := by
      unfold getExpandedKeys at hk ⊢
      rw [hexpEq] at hk
      exact hk
    exact e6 r this


theorem delChild_facts (b : Store) (k : Key) :
    SubMaps b (setD b ({ b.data with
      childKeyMap := aDel b.data.childKeyMap k } : StoreData) false) ∧
    aGet (setD b ({ b.data with
      childKeyMap := aDel b.data.childKeyMap k } : StoreData) false).data.childKeyMap
      k = none ∧
    (WFmaps b → WFmaps (setD b ({ b.data with
      childKeyMap := aDel b.data.childKeyMap k } : StoreData) false)) ∧
    (∀ j, j ≠ k → aGet (setD b ({ b.data with
      childKeyMap := aDel b.data.childKeyMap k } : StoreData) false).data.childKeyMap j =
      aGet b.data.childKeyMap j) := by
  refine ⟨⟨fun j => ?_, fun j => by simp, fun r j hj => ?_, fun r j hj => ?_⟩,
    by simp, fun hwf => ?_, fun j hj => ?_⟩
  · by_cases hjk : j = k
    · subst hjk
      right
      simp
    · left
      simp [aGet_aDel_ne _ hjk]
  · unfold getExpandedKeys at hj ⊢
    simpa using hj
  · unfold getSelectedKeysFor at hj ⊢
    simpa using hj
  · obtain ⟨w1, w2⟩ := hwf
    constructor <;> simpa
  · simp [aGet_aDel_ne _ hj]

/-- The loop purging a list of (gated) children, specified against any
per-call purge specification. -/
theorem purgeList_spec (P : Store → Key → Option Store)
    (hP : ∀ t sc c s1, GoodP t sc → P sc c = some s1 →
      GoodP t s1 ∧ SubMaps sc s1 ∧ (∀ j, PurgeReach sc c j → Removed j s1))
    (gate : Key → Bool) (s₀ sF : Store) :
    ∀ (old : List Key) (sc a : Store),
    GoodP s₀ sc → GoodP sF sc →
    purgeList P gate sc old = some a →
    GoodP s₀ a ∧ GoodP sF a ∧ SubMaps sc a ∧
    (∀ c ∈ old, gate c = true → ∀ j, PurgeReach sF c j → Removed j a) := by
  intro old
  induction old with
  | nil =>
    intro sc a hg0 hgF h
    rw [purgeList] at h
    cases h
    exact ⟨hg0, hgF, subMaps_refl sc, by simp⟩
  | cons c rest ihl =>
    intro sc a hg0 hgF h
    rw [purgeList] at h
    by_cases hgate : gate c = true
    · rw [if_pos hgate] at h
      cases hp : P sc c with
      | none => rw [hp] at h; simp at h
      | some s1 =>
        rw [hp] at h
        obtain ⟨g0, gsub, grem⟩ := hP s₀ sc c s1 hg0 hp
        obtain ⟨gF, _, _⟩ := hP sF sc c s1 hgF hp
        obtain ⟨G0, GF, Ssub, Rrest⟩ := ihl s1 a g0 gF h
        refine ⟨G0, GF, subMaps_trans gsub Ssub, ?_⟩
        intro c' hc' hgc' j hrj
        rcases List.mem_cons.mp hc' with rfl | hc''
        · rcases purge_bridge hgF hrj with hrem | hreach
          · exact removed_mono (removed_mono hrem gsub) Ssub
          · exact removed_mono (grem j hreach) Ssub
        · exact Rrest c' hc'' hgc' j hrj
    · rw [if_neg hgate] at h
      obtain ⟨G0, GF, Ssub, Rrest⟩ := ihl sc a hg0 hgF h
      refine ⟨G0, GF, Ssub, ?_⟩
      intro c' hc' hgc' j hrj
      rcases List.mem_cons.mp hc' with rfl | hc''
      · exact absurd hgc' hgate
      · exact Rrest c' hc'' hgc' j hrj

/-- The main specification of `_purgeDirectory`: a completed purge only
deletes, keeps the object maps well formed, tracks the deleted-entry
invariant relative to any start state, and removes every key reached from
the purged key through the (call-time) directory child lists. -/
theorem purge_main : ∀ (fuel : Nat) (s₀ s : Store) (k : Key) (s' : Store),
    GoodP s₀ s → purgeDirectory fuel s k = some s' →
    GoodP s₀ s' ∧ SubMaps s s' ∧ (∀ j, PurgeReach s k j → Removed j s') := by
  intro fuel
  induction fuel with
  | zero =>
    intro s₀ s k s' _ h
    exact absurd h (by simp [purgeDirectory])
  | succ fuel ih =>
    intro s₀ s k s' hg h
    rw [purgeDirectory] at h
    split at h
    · simp at h
    · next st2 hinner =>
      cases h
      split at hinner
      · next hck =>
        cases hinner
        obtain ⟨t1, t2, t3, t4, t5, t6⟩ := purgeTail_spec s k hg.2.1
        refine ⟨?_, t2, ?_⟩
        · refine ⟨subMaps_trans hg.1 t2, t3, ?_⟩
          intro m cs hm0 hmn j hrj
          rw [t1] at hmn
          exact removed_mono (hg.2.2 m cs hm0 hmn j hrj) t2
        · intro j hrj
          have hjk : j = k := purgeReach_none hrj hck
          subst hjk
          refine ⟨?_, t4, t5, t6⟩
          rw [t1]
          exact hck
      · next cks hck =>
        split at hinner
        · simp at hinner
        · next st1 hpl =>
          cases hinner
          obtain ⟨G0, GF, S1, R⟩ := purgeList_spec (purgeDirectory fuel)
            (fun t sc c s1 hgt hp => ih t sc c s1 hgt hp) isDirKey s₀ s cks s st1
            hg (goodP_refl s hg.2.1) hpl
          obtain ⟨dsub, dnone, dwf, dne⟩ := delChild_facts st1 k
          obtain ⟨t1, t2, t3, t4, t5, t6⟩ := purgeTail_spec
            (setD st1 ({ st1.data with
              childKeyMap := aDel st1.data.childKeyMap k } : StoreData) false) k
            (dwf G0.2.1)
          have hSub : SubMaps s (purgeTail (setD st1 ({ st1.data with
              childKeyMap := aDel st1.data.childKeyMap k } : StoreData) false) k) :=
            subMaps_trans (subMaps_trans S1 dsub) t2
          have hrem : ∀ j, PurgeReach s k j → Removed j
              (purgeTail (setD st1 ({ st1.data with
                childKeyMap := aDel st1.data.childKeyMap k } : StoreData) false) k) := by
            intro j hrj
            rcases purgeReach_split hrj with rfl | ⟨cs, c, hcs, hc, hd, hrc⟩
            · refine ⟨?_, t4, t5, t6⟩
              rw [t1]
              exact dnone
            · rw [hck] at hcs
              cases hcs
              exact removed_mono (removed_mono (R c hc hd j hrc) dsub) t2
          refine ⟨⟨subMaps_trans hg.1 hSub, t3, ?_⟩, hSub, hrem⟩
          intro m cs0 hm0 hmn j hrj
          rw [t1] at hmn
          by_cases hmk : m = k
          · subst hmk
            rcases purge_bridge hg hrj with hrem0 | hreach
            · exact removed_mono hrem0 hSub
            · exact hrem j hreach
          · rw [dne m hmk] at hmn
            exact removed_mono (G0.2.2 m cs0 hm0 hmn j hrj)
              (subMaps_trans dsub t2)

/-- C1 (amended): after a completed `purgeDirectory(k)`, `k` and every key
reachable from `k` through the (call-time) cached directory child lists is
wholly purged: no `childKeyMap` entry, no `subscriptionMap` entry, and
absent from every root's expansion and selection sets.  (Former descendants
NOT reachable that way are not purged: in particular a selected LEAF child
of a purged directory stays in its root's selection set — see the
counterexample.) -/
theorem c1_purge_cascade (fuel : Nat) (s s' : Store) (k : Key)
    (hwf : WFmaps s) (h : purgeDirectory fuel s k = some s')
    (j : Key) (hreach : PurgeReach s k j) : Removed j s' :=
  (purge_main fuel s s k s' (goodP_refl s hwf) h).2.2 j hreach

/-- A reachable store with a file "a/b/f" selected under root "a/" and
cached as a child of directory "a/b/". -/
def c1s1 : Store := setRootKeys initialStore ["a/"]

def c1s2 : Store := (getChildKeys c1s1 "a/" "a/").2

def c1s3 : Store := (onFetchSuccess (fun _ => true) 3 c1s2 "a/" ["a/b/"]).getD initialStore

def c1s4 : Store := (getChildKeys c1s3 "a/" "a/b/").2

def c1s5 : Store :=
  (onFetchSuccess (fun _ => true) 3 c1s4 "a/b/" ["a/b/f"]).getD initialStore

def c1State : Store := setSelectedKeysF c1s5 "a/" ["a/b/f"]

/-- C1 counterexample: the purge of "a/b/" completes, "a/b/f" was a cached
child (hence a former descendant) of "a/b/", yet it is still selected under
root "a/" afterwards — `_purgeDirectory` recurses only into DIRECTORY
children and never strips leaf descendants from the selection sets. -/
theorem c1_counterexample :
    Reachable c1State ∧
    "a/b/f" ∈ (aGet c1State.data.childKeyMap "a/b/").getD [] ∧
    (purgeDirectory 3 c1State "a/b/").isSome = true ∧
    "a/b/f" ∈ getSelectedKeysFor
      ((purgeDirectory 3 c1State "a/b/").getD initialStore) "a/" := by
  refine ⟨?_, by decide, by decide, by decide⟩
  have h1 : Reachable c1s1 := Reachable.setRoots Reachable.init
  have h2 : Reachable c1s2 := Reachable.query h1
  have h3 : Reachable c1s3 := @Reachable.fetchOk c1s2 (fun _ => true) 3 "a/" 0 ["a/b/"]
    c1s3 h2 (by decide) (by decide)
  have h4 : Reachable c1s4 := Reachable.query h3
  have h5 : Reachable c1s5 := @Reachable.fetchOk c1s4 (fun _ => true) 3 "a/b/" 1 ["a/b/f"]
    c1s5 h4 (by decide) (by decide)
  exact Reachable.select h5

/-- A concrete store for the C1 witness: "a/b/" is cached as a directory
child of "a/", watched, expanded and selected. -/
def c1WitState : Store :=
  { initialStore with data := { getDefaults with
      rootKeys := ["a/"]
      childKeyMap := [("a/", ["a/b/", "a/f"]), ("a/b/", [])]
      subscriptionMap := [("a/b/", 5)]
      expandedKeysByRoot := [("a/", ["a/", "a/b/"])]
      selectedKeysByRoot := [("a/", ["a/b/"])] } }

theorem c1_purge_cascade_witness :
    Removed "a/b/" ((purgeDirectory 3 c1WitState "a/").getD initialStore) :=
  c1_purge_cascade 3 c1WitState ((purgeDirectory 3 c1WitState "a/").getD initialStore)
    "a/" ⟨by decide, by decide⟩ (by decide) "a/b/"
    (PurgeReach.step PurgeReach.refl ["a/b/", "a/f"] (by decide) (by decide) (by decide))

/-- C10: when `_setChildKeys` installs a new child list for `k` (as it is on
fetch success and from CreateChild), every directory key present in the old
cached list but absent from the new one is recursively purged: it and every
key reached from it through cached directory child lists lose their cached
children and watch subscription and are removed from every root's expansion
and selection sets. -/
theorem c10_new_child_list_purges (fuel : Nat) (s s' : Store) (k : Key)
    (old cks : List Key) (hwf : WFmaps s) (hlen : WFlen s)
    (hold : aGet s.data.childKeyMap k = some old)
    (h : setChildKeys fuel s k cks = some s') :
    ∀ c ∈ old, isDirKey c = true → cks.contains c = false →
      ∀ j, PurgeReach s c j → Removed j s' := by
  unfold setChildKeys at h
  split at h
  · next old' hold' =>
    have holdeq : old' = old := by
      rw [hold] at hold'
      exact (Option.some_inj.mp hold').symm
    subst holdeq
    split at h
    · simp at h
    · next st1 hpl =>
      cases h
      obtain ⟨G0, _, S1, R⟩ := purgeList_spec (purgeDirectory fuel)
        (fun t sc c s1 hgt hp => purge_main fuel t sc c s1 hgt hp)
        (fun c => isDirKey c && !cks.contains c) s s old' s st1
        (goodP_refl s hwf) (goodP_refl s hwf) hpl
      intro c hc hdc hcks j hrj
      have hrem1 : Removed j st1 :=
        R c hc (by rw [hdc, hcks]; rfl) j hrj
      have hklen : k.length < c.length := hlen _ (aGet_some_mem hold) c hc
      have hjk : j ≠ k := by
        rcases purgeReach_len hlen hrj with rfl | hlt
        · exact fun hk => absurd (hk ▸ hklen) (Nat.lt_irrefl _)
        · intro hk
          exact absurd (hk ▸ Nat.lt_trans hklen hlt) (Nat.lt_irrefl _)
      obtain ⟨r1, r2, r3, r4⟩ := hrem1
      refine ⟨?_, ?_, ?_, ?_⟩
      · simp only [setD_data]
        show aGet (aSet st1.data.childKeyMap k cks) j = none
        rw [aGet_aSet_ne _ _ hjk]
        exact r1
      · simpa using r2
      · intro r
        have := r3 r
        unfold getExpandedKeys at this ⊢
        simpa using this
      · intro r
        have := r4 r
        unfold getSelectedKeysFor at this ⊢
        simpa using this
  · next hold' =>
    rw [hold] at hold'
    simp at hold'

/-- A concrete store for the C10 witness: the new list for "a/" drops the
watched, expanded, selected directory "a/b/". -/
def c10WitState : Store :=
  { initialStore with data := { getDefaults with
      rootKeys := ["a/"]
      childKeyMap := [("a/", ["a/b/", "a/c/"]), ("a/b/", ["a/b/f"])]
      subscriptionMap := [("a/b/", 3)]
      expandedKeysByRoot := [("a/", ["a/", "a/b/"])]
      selectedKeysByRoot := [("a/", ["a/b/"])] } }

theorem c10_new_child_list_purges_witness :
    Removed "a/b/" ((setChildKeys 3 c10WitState "a/" ["a/c/"]).getD initialStore) :=
  c10_new_child_list_purges 3 c10WitState
    ((setChildKeys 3 c10WitState "a/" ["a/c/"]).getD initialStore) "a/"
    ["a/b/", "a/c/"] ["a/c/"] ⟨by decide, by decide⟩ (by unfold WFlen; decide)
    (by decide) (by decide)
    "a/b/" (by decide) (by decide) (by decide) "a/b/" PurgeReach.refl


/-! ### C8: collapse / re-expand round trip -/

/-- The per-root `previouslyExpanded` record (`this._data.previouslyExpanded[rootKey] || {}`). -/
def peR (st : Store) (r : Key) : List (Key × List Key) :=
  (aGet st.data.previouslyExpanded r).getD []

theorem peR_def (st : Store) (r : Key) :
    (aGet st.data.previouslyExpanded r).getD [] = peR st r := rfl

/-- Sequential traversal of a node list by a visitor `g`, concatenating the
visited sets — the shape of `_expandNode`'s `for childKey of ...` loop. -/
def spansLGo (g : Key → Option (List Key)) : List Key → Option (List Key)
  | [] => some []
  | c :: cs => (g c).bind (fun v => (spansLGo g cs).map (fun w => v ++ w))

/-- The set of keys `_expandNode(r, k)` re-expands, read off a fixed
`previouslyExpanded` record: `k` plus, recursively, its recorded children.
Fuel-bounded like the recursion it mirrors. -/
def spansF : Nat → List (Key × List Key) → Key → Option (List Key)
  | 0, _, _ => none
  | f + 1, pe, k =>
    match aGet pe k with
    | none => some [k]
    | some cs => (spansLGo (spansF f pe) cs).map (fun l => k :: l)

theorem spansF_head (g : Nat) (pe : List (Key × List Key)) (k : Key) (V : List Key)
    (h : spansF g pe k = some V) : ∃ t, V = k :: t := by
  cases g with
  | zero => simp [spansF] at h
  | succ g =>
    rw [spansF] at h
    split at h
    · cases h
      exact ⟨[], rfl⟩
    · next cs hcs =>
      cases hLG : spansLGo (spansF g pe) cs with
      | none => rw [hLG] at h; simp at h
      | some l =>
        rw [hLG] at h
        simp at h
        exact ⟨l, h.symm⟩

/-- The visitor loop is stable under changing the visitor on the visited set. -/
theorem spansLGo_stable (g g2 : Key → Option (List Key)) (P : Key → Prop)
    (hgg : ∀ c v, g c = some v → (∀ m ∈ v, P m) → g2 c = some v) :
    ∀ (cs t : List Key), spansLGo g cs = some t → (∀ m ∈ t, P m) →
    spansLGo g2 cs = some t := by
  intro cs
  induction cs with
  | nil =>
    intro t h _
    exact h
  | cons c cs ih =>
    intro t h hP
    simp only [spansLGo] at h ⊢
    cases hgc : g c with
    | none => rw [hgc] at h; simp at h
    | some v =>
      rw [hgc] at h
      cases hLG : spansLGo g cs with
      | none => rw [hLG] at h; simp at h
      | some t2 =>
        rw [hLG] at h
        simp at h
        subst h
        rw [hgg c v hgc (fun m hm => hP m (List.mem_append_left _ hm)),
          ih t2 hLG (fun m hm => hP m (List.mem_append_right _ hm))]
        rfl

/-- `spansF` only reads the record entries of the keys it returns, so it is
stable under any record change outside that set. -/
theorem spans_stable : ∀ (g : Nat) (pe pe2 : List (Key × List Key)) (k : Key) (V : List Key),
    spansF g pe k = some V → (∀ m ∈ V, aGet pe2 m = aGet pe m) →
    spansF g pe2 k = some V := by
  intro g
  induction g with
  | zero =>
    intro pe pe2 k V h _
    simp [spansF] at h
  | succ g ih =>
    intro pe pe2 k V h hag
    obtain ⟨t, rfl⟩ := spansF_head _ _ _ _ h
    have hk : aGet pe2 k = aGet pe k := hag k (List.mem_cons_self _ _)
    rw [spansF] at h ⊢
    rw [hk]
    cases hpk : aGet pe k with
    | none =>
      rw [hpk] at h
      exact h
    | some cs =>
      rw [hpk] at h
      have h2 : Option.map (fun l => k :: l) (spansLGo (spansF g pe) cs) = some (k :: t) := h
      show Option.map (fun l => k :: l) (spansLGo (spansF g pe2) cs) = some (k :: t)
      cases hLG : spansLGo (spansF g pe) cs with
      | none => rw [hLG] at h2; simp at h2
      | some l =>
        rw [hLG] at h2
        simp at h2
        subst h2
        rw [spansLGo_stable (spansF g pe) (spansF g pe2)
          (fun m => aGet pe2 m = aGet pe m)
          (fun c v hv hPv => ih pe pe2 c v hv hPv) cs l hLG
          (fun m hm => hag m (List.mem_cons_of_mem _ hm))]
        rfl

theorem expandFold_none (f : Nat) (r : Key) (cs : List Key) :
    cs.foldl (fun acc c => acc.bind (fun t => expandNode f t r c)) none = none := by
  induction cs with
  | nil => rfl
  | cons c cs ih => simpa using ih

theorem getExpandedKeys_setExp (st : Store) (r : Key) (ks : List Key) :
    getExpandedKeys (setExpandedKeysF st r ks) r = ks := by
  simp [getExpandedKeys]

theorem peR_setExp (st : Store) (r r2 : Key) (ks : List Key) :
    peR (setExpandedKeysF st r ks) r2 = peR st r2 := by
  simp [peR]

theorem collapseSel_keeps (r c : Key) (q : Store × Option (List Key)) :
    (collapseSel r c q).1.data.expandedKeysByRoot = q.1.data.expandedKeysByRoot ∧
    (collapseSel r c q).1.data.previouslyExpanded = q.1.data.previouslyExpanded ∧
    (collapseSel r c q).1.data.childKeyMap = q.1.data.childKeyMap := by
  obtain ⟨st, o⟩ := q
  cases o with
  | none => exact ⟨rfl, rfl, rfl⟩
  | some S =>
    by_cases hc : c ∈ S
    · refine ⟨?_, ?_, ?_⟩ <;> simp [collapseSel, hc]
    · refine ⟨?_, ?_, ?_⟩ <;> simp [collapseSel, hc]

/-- The straight-line tail of `_collapseNode` (record `previouslyExpanded`,
un-expand the node, release the subscription), factored out of the body. -/
def collapseTail (b : Store) (r k : Key) (eck : List Key) : Store :=
  let pe := (aGet b.data.previouslyExpanded r).getD []
  let pe2 := if eck = [] then aDel pe k else aSet pe k eck
  let st2 := setD b { b.data with
    previouslyExpanded := aSet b.data.previouslyExpanded r pe2 } false
  let st3 := setExpandedKeysF st2 r (sDel (getExpandedKeys st2 r) k)
  removeSubscription st3 r k

theorem collapseNode_succ (F : Nat) (s : Store) (r k : Key) :
    collapseNode (F + 1) s r k =
      match (match aGet s.data.childKeyMap k with
             | none => some (s, aGet s.data.selectedKeysByRoot r, ([] : List Key))
             | some cks =>
               cks.foldl (collapseStep (fun t c => collapseNode F t r c) r)
                 (some (s, aGet s.data.selectedKeysByRoot r, []))) with
      | none => none
      | some a => some (collapseTail a.1 r k a.2.2) := by
  rw [collapseNode]
  rfl

theorem collapseTail_pe (b : Store) (r k : Key) (eck : List Key) :
    (collapseTail b r k eck).data.previouslyExpanded =
      aSet b.data.previouslyExpanded r
        (if eck = [] then aDel (peR b r) k else aSet (peR b r) k eck) := by
  unfold collapseTail peR
  rw [(removeSubscription_sets _ r k).2.2.1]
  simp

theorem collapseTail_exp (b : Store) (r k : Key) (eck : List Key) :
    getExpandedKeys (collapseTail b r k eck) r = sDel (getExpandedKeys b r) k := by
  unfold collapseTail getExpandedKeys
  rw [(removeSubscription_sets _ r k).1]
  simp [getExpandedKeys]

theorem collapseTail_ck (b : Store) (r k : Key) (eck : List Key) :
    (collapseTail b r k eck).data.childKeyMap = b.data.childKeyMap := by
  unfold collapseTail
  rw [(removeSubscription_frame _ r k).1]
  simp

theorem wflen_eq {s s2 : Store} (h : s2.data.childKeyMap = s.data.childKeyMap)
    (hw : WFlen s) : WFlen s2 := by
  unfold WFlen at hw ⊢
  rw [h]
  exact hw

theorem mem_of_isExpanded {st : Store} {r k : Key} (h : isExpanded st r k = true) :
    k ∈ getExpandedKeys st r := by
  rw [isExpanded_eq] at h
  unfold getExpandedKeys
  simpa using h


theorem peR_setD_write (st : Store) (r : Key) (x : List (Key × List Key)) :
    peR (setD st { st.data with
      previouslyExpanded := aSet st.data.previouslyExpanded r x } false) r = x := by
  simp [peR]

theorem exp_setD_write (st : Store) (r r2 : Key) (x : List (Key × List Key)) :
    getExpandedKeys (setD st { st.data with
      previouslyExpanded := aSet st.data.previouslyExpanded r x } false) r2 =
      getExpandedKeys st r2 := by
  simp [getExpandedKeys]

/-- The `for childKey of previouslyExpanded[nodeKey]` loop of `_expandNode`,
run against the spans of a reference record `pe0`: each child's recursive
expansion deletes only that child's own record entry (its inner deletions
being resurrected by the stale write-back), so the remaining spans stay
valid and the loop expands exactly the concatenated spans. -/
theorem expand_fold (f g : Nat) (r : Key) (pe0 : List (Key × List Key))
    (IH : ∀ (g2 : Nat) (s : Store) (k : Key) (s2 : Store) (V : List Key),
      expandNode f s r k = some s2 →
      spansF g2 (peR s r) k = some V → V.Nodup →
      (∀ j, j ∈ getExpandedKeys s2 r ↔ j ∈ getExpandedKeys s r ∨ j ∈ V) ∧
      aGet (peR s2 r) k = none ∧
      (∀ m, m ≠ k → aGet (peR s2 r) m = aGet (peR s r) m)) :
    ∀ (cs : List Key) (a a2 : Store) (accL L E0 : List Key),
    cs.foldl (fun acc c => acc.bind (fun t => expandNode f t r c)) (some a) = some a2 →
    spansLGo (spansF g pe0) cs = some L →
    (accL ++ L).Nodup →
    (∀ m, m ∉ accL → aGet (peR a r) m = aGet pe0 m) →
    (∀ j, j ∈ getExpandedKeys a r ↔ j ∈ E0 ∨ j ∈ accL) →
    (∀ j, j ∈ getExpandedKeys a2 r ↔ j ∈ E0 ∨ j ∈ accL ∨ j ∈ L) ∧
    (∀ m, m ∉ accL → m ∉ L → aGet (peR a2 r) m = aGet pe0 m) := by
  intro cs
  induction cs with
  | nil =>
    intro a a2 accL L E0 hfold hsp hnd hag hexp
    rw [List.foldl_nil] at hfold
    cases hfold
    have hL : L = [] := by simpa [spansLGo] using hsp.symm
    subst hL
    refine ⟨fun j => ?_, fun m hm _ => hag m hm⟩
    rw [hexp j]
    simp
  | cons c cs ih =>
    intro a a2 accL L E0 hfold hsp hnd hag hexp
    rw [List.foldl_cons] at hfold
    have hfold2 : cs.foldl (fun acc c => acc.bind (fun t => expandNode f t r c))
        (expandNode f a r c) = some a2 := hfold
    simp only [spansLGo] at hsp
    cases hVc : spansF g pe0 c with
    | none => rw [hVc] at hsp; simp at hsp
    | some Vc =>
      rw [hVc] at hsp
      cases hLG : spansLGo (spansF g pe0) cs with
      | none => rw [hLG] at hsp; simp at hsp
      | some L2 =>
        rw [hLG] at hsp
        simp at hsp
        subst hsp
        cases hstep : expandNode f a r c with
        | none =>
          rw [hstep, expandFold_none] at hfold2
          exact absurd hfold2 (by simp)
        | some a1 =>
          rw [hstep] at hfold2
          obtain ⟨hnd1, hnd23, hdisj⟩ := List.nodup_append.mp hnd
          obtain ⟨hndVc, hndL2, hdisj2⟩ := List.nodup_append.mp hnd23
          have hVc2 : spansF g (peR a r) c = some Vc :=
            spans_stable g pe0 (peR a r) c Vc hVc
              (fun m hm => hag m (fun hmacc => hdisj hmacc (List.mem_append_left _ hm)))
          obtain ⟨hA, hB, hC⟩ := IH g a c a1 Vc hstep hVc2 hndVc
          obtain ⟨tV, htV⟩ := spansF_head g pe0 c Vc hVc
          have hcVc : c ∈ Vc := by rw [htV]; exact List.mem_cons_self _ _
          have hrec := ih a1 a2 (accL ++ Vc) L2 E0 hfold2 hLG
            (by rw [List.append_assoc]; exact hnd)
            (by
              intro m hm
              have hmacc : m ∉ accL := fun hx => hm (List.mem_append_left _ hx)
              have hmVc : m ∉ Vc := fun hx => hm (List.mem_append_right _ hx)
              rw [hC m (fun he => hmVc (he ▸ hcVc))]
              exact hag m hmacc)
            (by
              intro j
              rw [hA j, hexp j, List.mem_append]
              tauto)
          refine ⟨fun j => ?_, fun m hmacc hmL => ?_⟩
          · rw [hrec.1 j]
            simp only [List.mem_append]
            tauto
          · have hmVc : m ∉ Vc := fun hx => hmL (List.mem_append_left _ hx)
            have hmL2 : m ∉ L2 := fun hx => hmL (List.mem_append_right _ hx)
            exact hrec.2 m
              (fun hx => (List.mem_append.mp hx).elim hmacc hmVc) hmL2

/-- `_expandNode(r, k)` expands exactly the spans of `k` recorded in
`previouslyExpanded[r]` (when those spans are duplicate-free), and its net
effect on that record is to delete `k`'s own entry — the stale snapshot
write-back resurrects every entry its recursive calls deleted. -/
theorem expand_main : ∀ (f g : Nat) (s : Store) (r k : Key) (s2 : Store) (V : List Key),
    expandNode f s r k = some s2 →
    spansF g (peR s r) k = some V →
    V.Nodup →
    (∀ j, j ∈ getExpandedKeys s2 r ↔ j ∈ getExpandedKeys s r ∨ j ∈ V) ∧
    aGet (peR s2 r) k = none ∧
    (∀ m, m ≠ k → aGet (peR s2 r) m = aGet (peR s r) m) := by
  intro f
  induction f with
  | zero =>
    intro g s r k s2 V h _ _
    simp [expandNode] at h
  | succ f ihf =>
    intro g s r k s2 V h hsp hnd
    rw [expandNode] at h
    simp only [setExpandedKeysF_data] at h
    rw [peR_def] at h
    split at h
    · next hnone =>
      cases h
      cases g with
      | zero => simp [spansF] at hsp
      | succ g2 =>
        rw [spansF] at hsp
        rw [hnone] at hsp
        cases hsp
        refine ⟨fun j => ?_, ?_, fun m hm => ?_⟩
        · rw [getExpandedKeys_setExp]
          simp [mem_sAdd]
        · rw [peR_setExp]
          exact hnone
        · rw [peR_setExp]
    · next cks hcks =>
      split at h
      · exact absurd h (by simp)
      · next st2 hfold =>
        cases h
        cases g with
        | zero => simp [spansF] at hsp
        | succ g2 =>
          rw [spansF] at hsp
          rw [hcks] at hsp
          have hsp2 : Option.map (fun l => k :: l)
              (spansLGo (spansF g2 (peR s r)) cks) = some V := hsp
          cases hLG : spansLGo (spansF g2 (peR s r)) cks with
          | none => rw [hLG] at hsp2; simp at hsp2
          | some L =>
            rw [hLG] at hsp2
            simp at hsp2
            subst hsp2
            have hkL : k ∉ L := (List.nodup_cons.mp hnd).1
            have hndL : L.Nodup := (List.nodup_cons.mp hnd).2
            have hfold2 := expand_fold f g2 r (peR s r)
              (fun g3 t k2 t2 V2 h1 h2 h3 => ihf g3 t r k2 t2 V2 h1 h2 h3)
              cks (setExpandedKeysF s r (sAdd (getExpandedKeys s r) k)) st2 [] L
              (sAdd (getExpandedKeys s r) k) hfold hLG
              (by simpa using hndL)
              (by intro m hm; rw [peR_setExp])
              (by intro j; rw [getExpandedKeys_setExp]; simp)
            obtain ⟨hExp2, hPe2⟩ := hfold2
            refine ⟨fun j => ?_, ?_, fun m hm => ?_⟩
            · rw [exp_setD_write, hExp2 j]
              simp only [mem_sAdd, List.mem_cons, List.not_mem_nil, false_or]
              tauto
            · rw [peR_setD_write]
              simp
            · rw [peR_setD_write]
              exact aGet_aDel_ne _ hm


/-- The `childKeys.forEach` loop of `_collapseNode`: children that are
expanded directories are recorded and recursively collapsed; the recorded
list spans exactly the keys removed from the expansion set, and the
`previouslyExpanded` record now carries those spans. -/
theorem collapse_fold (F : Nat) (r : Key)
    (IH : ∀ (s : Store) (k : Key) (s1 : Store),
      collapseNode F s r k = some s1 → WFlen s → k ∈ getExpandedKeys s r →
      ∃ V : List Key, spansF F (peR s1 r) k = some V ∧ V.Nodup ∧
        (∀ v ∈ V, v ∈ getExpandedKeys s r) ∧
        (∀ v ∈ V, v = k ∨ k.length < v.length) ∧
        (∀ j, j ∈ getExpandedKeys s1 r ↔ j ∈ getExpandedKeys s r ∧ j ∉ V) ∧
        (∀ m, m ∉ V → aGet (peR s1 r) m = aGet (peR s r) m)) :
    ∀ (cks : List Key) (a0 : Store) (sv : Option (List Key)) (e0 : List Key)
      (res : Store × Option (List Key) × List Key),
    cks.foldl (collapseStep (fun t c => collapseNode F t r c) r) (some (a0, sv, e0)) =
      some res →
    WFlen a0 →
    ∃ ds VL : List Key,
      res.2.2 = e0 ++ ds ∧
      spansLGo (spansF F (peR res.1 r)) ds = some VL ∧
      VL.Nodup ∧
      (∀ v ∈ VL, v ∈ getExpandedKeys a0 r) ∧
      (∀ v ∈ VL, ∃ c ∈ ds, v = c ∨ c.length < v.length) ∧
      (∀ c ∈ ds, c ∈ cks) ∧
      (∀ j, j ∈ getExpandedKeys res.1 r ↔ j ∈ getExpandedKeys a0 r ∧ j ∉ VL) ∧
      (∀ m, m ∉ VL → aGet (peR res.1 r) m = aGet (peR a0 r) m) ∧
      res.1.data.childKeyMap = a0.data.childKeyMap := by
  intro cks
  induction cks with
  | nil =>
    intro a0 sv e0 res hfold _
    rw [List.foldl_nil] at hfold
    cases hfold
    exact ⟨[], [], by simp, rfl, List.nodup_nil, by simp, by simp, by simp,
      fun j => by simp, fun m hm => rfl, rfl⟩
  | cons c cks ihl =>
    intro a0 sv e0 res hfold hwl
    rw [List.foldl_cons] at hfold
    cases hstep : collapseStep (fun t c => collapseNode F t r c) r (some (a0, sv, e0)) c with
    | none =>
      rw [hstep, foldl_collapseStep_none] at hfold
      exact absurd hfold (by simp)
    | some acc1 =>
      rw [hstep] at hfold
      simp only [collapseStep] at hstep
      obtain ⟨hex, hpe, hck⟩ := collapseSel_keeps r c (a0, sv)
      have hexpEq : getExpandedKeys (collapseSel r c (a0, sv)).1 r = getExpandedKeys a0 r := by
        unfold getExpandedKeys
        rw [hex]
      have hpeEq : peR (collapseSel r c (a0, sv)).1 r = peR a0 r := by
        unfold peR
        rw [hpe]
      split at hstep
      · next hgate =>
        split at hstep
        · exact absurd hstep (by simp)
        · next b heqb =>
          cases hstep
          have hge : isExpanded (collapseSel r c (a0, sv)).1 r c = true := by
            have h2 := hgate
            simp only [Bool.and_eq_true] at h2
            exact h2.2
          have hcexp : c ∈ getExpandedKeys (collapseSel r c (a0, sv)).1 r :=
            mem_of_isExpanded hge
          have hwl2 : WFlen (collapseSel r c (a0, sv)).1 := wflen_eq hck hwl
          obtain ⟨Vc, hVc, hndVc, hVcsub, hVclen, hVciff, hVcpe⟩ :=
            IH (collapseSel r c (a0, sv)).1 c b heqb hwl2 hcexp
          have hckb : b.data.childKeyMap = (collapseSel r c (a0, sv)).1.data.childKeyMap :=
            (collapseNode_frame F _ r c b heqb).1
          obtain ⟨ds2, VL2, hds2, hsp2, hnd2, hsub2, hlen2, hcks2, hiff2, hpe2, hck2⟩ :=
            ihl b (collapseSel r c (a0, sv)).2 (e0 ++ [c]) res hfold
              (wflen_eq (hckb.trans hck) hwl)
          refine ⟨c :: ds2, Vc ++ VL2, ?_, ?_, ?_, ?_, ?_, ?_, ?_, ?_, ?_⟩
          · rw [hds2]
            simp
          · have hVc3 : spansF F (peR res.1 r) c = some Vc := by
              apply spans_stable F (peR b r) (peR res.1 r) c Vc hVc
              intro m hm
              apply hpe2
              intro hmVL
              exact ((hVciff m).mp (hsub2 m hmVL)).2 hm
            show Option.bind (spansF F (peR res.1 r) c)
              (fun v => (spansLGo (spansF F (peR res.1 r)) ds2).map (fun w => v ++ w)) =
              some (Vc ++ VL2)
            rw [hVc3, hsp2]
            rfl
          · refine List.nodup_append.mpr ⟨hndVc, hnd2, ?_⟩
            intro x hxVc hxVL2
            exact ((hVciff x).mp (hsub2 x hxVL2)).2 hxVc
          · intro v hv
            rcases List.mem_append.mp hv with hvV | hvV
            · have h2 := hVcsub v hvV
              rwa [hexpEq] at h2
            · have h2 := ((hVciff v).mp (hsub2 v hvV)).1
              rwa [hexpEq] at h2
          · intro v hv
            rcases List.mem_append.mp hv with hvV | hvV
            · exact ⟨c, List.mem_cons_self _ _, hVclen v hvV⟩
            · obtain ⟨c2, hc2, hl⟩ := hlen2 v hvV
              exact ⟨c2, List.mem_cons_of_mem _ hc2, hl⟩
          · intro x hx
            rcases List.mem_cons.mp hx with rfl | hx2
            · exact List.mem_cons_self _ _
            · exact List.mem_cons_of_mem _ (hcks2 x hx2)
          · intro j
            rw [hiff2 j, hVciff j, hexpEq]
            simp only [List.mem_append]
            tauto
          · intro m hm
            have hmVc : m ∉ Vc := fun hx => hm (List.mem_append_left _ hx)
            have hmVL : m ∉ VL2 := fun hx => hm (List.mem_append_right _ hx)
            rw [hpe2 m hmVL, hVcpe m hmVc, hpeEq]
          · rw [hck2, hckb, hck]
      · cases hstep
        obtain ⟨ds2, VL2, hds2, hsp2, hnd2, hsub2, hlen2, hcks2, hiff2, hpe2, hck2⟩ :=
          ihl (collapseSel r c (a0, sv)).1 (collapseSel r c (a0, sv)).2 e0 res hfold
            (wflen_eq hck hwl)
        refine ⟨ds2, VL2, hds2, hsp2, hnd2, ?_, hlen2, ?_, ?_, ?_, ?_⟩
        · intro v hv
          have h2 := hsub2 v hv
          rwa [hexpEq] at h2
        · intro x hx
          exact List.mem_cons_of_mem _ (hcks2 x hx)
        · intro j
          rw [hiff2 j, hexpEq]
        · intro m hm
          rw [hpe2 m hm, hpeEq]
        · rw [hck2, hck]

/-- `_collapseNode(r, k)` removes from `r`'s expansion set exactly `k` plus
the recorded expanded-directory descendants, and stores that very tree in
`previouslyExpanded[r]` as the spans of `k`. -/
theorem collapse_main : ∀ (F : Nat) (s : Store) (r k : Key) (s1 : Store),
    collapseNode F s r k = some s1 → WFlen s → k ∈ getExpandedKeys s r →
    ∃ V : List Key, spansF F (peR s1 r) k = some V ∧ V.Nodup ∧
      (∀ v ∈ V, v ∈ getExpandedKeys s r) ∧
      (∀ v ∈ V, v = k ∨ k.length < v.length) ∧
      (∀ j, j ∈ getExpandedKeys s1 r ↔ j ∈ getExpandedKeys s r ∧ j ∉ V) ∧
      (∀ m, m ∉ V → aGet (peR s1 r) m = aGet (peR s r) m) := by
  intro F
  induction F with
  | zero =>
    intro s r k s1 h _ _
    simp [collapseNode] at h
  | succ F ihF =>
    intro s r k s1 h hwl hk
    rw [collapseNode_succ] at h
    split at h
    · exact absurd h (by simp)
    · next a heqa =>
      cases h
      split at heqa
      · next hckn =>
        cases heqa
        have hpe1 : peR (collapseTail s r k []) r = aDel (peR s r) k := by
          unfold peR
          rw [collapseTail_pe]
          simp [peR]
        have hexp1 := collapseTail_exp s r k []
        refine ⟨[k], ?_, by simp, ?_, ?_, ?_, ?_⟩
        · rw [spansF, hpe1, aGet_aDel_self]
        · intro v hv
          rw [List.mem_singleton] at hv
          subst hv
          exact hk
        · intro v hv
          rw [List.mem_singleton] at hv
          exact Or.inl hv
        · intro j
          rw [hexp1]
          simp [mem_sDel]
        · intro m hm
          have hmk : m ≠ k := by simpa using hm
          rw [hpe1, aGet_aDel_ne _ hmk]
      · next cks hckv =>
        obtain ⟨ds, VL, hds, hsp, hnd, hsub, hlen, hcks, hiff, hpe, hck⟩ :=
          collapse_fold F r (fun t k2 t2 h1 h2 h3 => ihF t r k2 t2 h1 h2 h3)
            cks s (aGet s.data.selectedKeysByRoot r) [] a heqa hwl
        rw [List.nil_append] at hds
        have hkVL : ∀ v ∈ VL, k.length < v.length := by
          intro v hv
          obtain ⟨c2, hc2, hcase⟩ := hlen v hv
          have hklt : k.length < c2.length :=
            hwl (k, cks) (aGet_some_mem hckv) c2 (hcks c2 hc2)
          rcases hcase with rfl | hlt
          · exact hklt
          · exact Nat.lt_trans hklt hlt
        have hkVL2 : k ∉ VL := fun hx => Nat.lt_irrefl _ (hkVL k hx)
        have hpe1 : peR (collapseTail a.1 r k a.2.2) r =
            (if a.2.2 = [] then aDel (peR a.1 r) k else aSet (peR a.1 r) k a.2.2) := by
          unfold peR
          rw [collapseTail_pe]
          simp [peR]
        have hexp1 := collapseTail_exp a.1 r k a.2.2
        refine ⟨k :: VL, ?_, List.nodup_cons.mpr ⟨hkVL2, hnd⟩, ?_, ?_, ?_, ?_⟩
        · rw [spansF]
          by_cases hdse : ds = []
          · have hVLe : VL = [] := by
              subst hdse
              simpa [spansLGo] using hsp.symm
            subst hVLe
            rw [hpe1, hds, hdse]
            simp
          · rw [hpe1, hds, if_neg hdse, aGet_aSet_self]
            show Option.map (fun l => k :: l)
              (spansLGo (spansF F (aSet (peR a.1 r) k ds)) ds) = some (k :: VL)
            have hsp2 : spansLGo (spansF F (aSet (peR a.1 r) k ds)) ds = some VL := by
              apply spansLGo_stable (spansF F (peR a.1 r))
                (spansF F (aSet (peR a.1 r) k ds))
                (fun m => aGet (aSet (peR a.1 r) k ds) m = aGet (peR a.1 r) m)
                (fun c2 v hv hP => spans_stable F _ _ c2 v hv hP) ds VL hsp
              intro m hm
              have hmk : m ≠ k := fun he => hkVL2 (he ▸ hm)
              rw [aGet_aSet_ne _ _ hmk]
            rw [hsp2]
            rfl
        · intro v hv
          rcases List.mem_cons.mp hv with rfl | hv2
          · exact hk
          · exact hsub v hv2
        · intro v hv
          rcases List.mem_cons.mp hv with rfl | hv2
          · exact Or.inl rfl
          · exact Or.inr (hkVL v hv2)
        · intro j
          rw [hexp1]
          simp only [mem_sDel, hiff j, List.mem_cons]
          tauto
        · intro m hm
          have hmk : m ≠ k := fun he => hm (he ▸ List.mem_cons_self _ _)
          have hmVL : m ∉ VL := fun hx => hm (List.mem_cons_of_mem _ hx)
          rw [hpe1]
          by_cases hdse : a.2.2 = []
          · rw [if_pos hdse, aGet_aDel_ne _ hmk]
            exact hpe m hmVL
          · rw [if_neg hdse, aGet_aSet_ne _ _ hmk]
            exact hpe m hmVL


/-- C8: for a root `r` and a key `k` expanded under `r`, in a store whose
cached child lists are well formed (each cached child strictly longer than
its parent key, as path keys are), a completed collapse of `k` followed by
a completed re-expansion of `k` under `r` restores exactly (as a set) the
keys that were expanded under `r` before the collapse, and the
`previouslyExpanded[r]` entry for `k` is removed the moment the
re-expansion consumes it. -/
theorem c8_collapse_expand_roundtrip (f1 f2 : Nat) (s s1 s2 : Store) (r k : Key)
    (hwf : WFlen s) (hk : k ∈ getExpandedKeys s r)
    (h1 : collapseNode f1 s r k = some s1)
    (h2 : expandNode f2 s1 r k = some s2) :
    (∀ j, j ∈ getExpandedKeys s2 r ↔ j ∈ getExpandedKeys s r) ∧
    aGet ((aGet s2.data.previouslyExpanded r).getD []) k = none := by
  obtain ⟨V, hsp, hnd, hsub, _, hiff, _⟩ := collapse_main f1 s r k s1 h1 hwf hk
  obtain ⟨hA, hB, _⟩ := expand_main f2 f1 s1 r k s2 V h2 hsp hnd
  refine ⟨fun j => ?_, hB⟩
  rw [hA j, hiff j]
  constructor
  · rintro (⟨hj, _⟩ | hjV)
    · exact hj
    · exact hsub j hjV
  · intro hj
    by_cases hv : j ∈ V
    · exact Or.inr hv
    · exact Or.inl ⟨hj, hv⟩

/-- A concrete store for the C8 witness: root "a/" expanded together with
its cached directory child "a/b/". -/
def c8WitState : Store :=
  { initialStore with data := { getDefaults with
      rootKeys := ["a/"]
      childKeyMap := [("a/", ["a/b/", "a/f"]), ("a/b/", [])]
      expandedKeysByRoot := [("a/", ["a/", "a/b/"])] } }

def c8Wit1 : Store := (collapseNode 3 c8WitState "a/" "a/").getD initialStore

def c8Wit2 : Store := (expandNode 3 c8Wit1 "a/" "a/").getD initialStore

theorem c8_collapse_expand_roundtrip_witness :
    (∀ j, j ∈ getExpandedKeys c8Wit2 "a/" ↔ j ∈ getExpandedKeys c8WitState "a/") ∧
    aGet ((aGet c8Wit2.data.previouslyExpanded "a/").getD []) "a/" = none :=
  c8_collapse_expand_roundtrip 3 3 c8WitState c8Wit1 c8Wit2 "a/" "a/"
    (by unfold WFlen; decide) (by decide) (by decide) (by decide)


end FileTree
